import Mathlib

/-!
# Verification of the `stars` static-timing-analysis core

A shallow embedding of the timing-graph builder (`src/graph.rs`), the
longest-path analyzer and critical-path extractor (`src/analysis.rs`) and the
transistor binning functions (`src/spice.rs`), together with proofs about the
properties claimed in the specification.

Modelling conventions:
* Rust `f32` delay values are modelled as `ℚ`; the `f32::NAN` sentinel used
  by the analyzer is modelled as `Option ℚ` with `none` playing the role of
  NaN (`FVal` below), with `fadd`/`fmax`/`feq` mirroring the NaN semantics of
  `+`, `f32::max` and `==` on the values the code actually manipulates.
* `BTreeMap` is modelled as an association list ordered by key (`OMap`);
  insertion keeps the list sorted, so iteration order matches `BTreeMap`.
* Functions that can panic return `Res α` with a `panic` outcome; the
  unbounded recursion of the analyzer's `visit` is given an explicit fuel
  parameter, with the distinct outcome `outOfFuel` when the bound is hit.
-/

/-- `Transition` from `src/types.rs`: a rise (0→1) or fall (1→0) edge. -/
inductive Transition
  | Rise
  | Fall
deriving DecidableEq, Repr

/-- `SDFPin` from `src/types.rs`: a hierarchical pin name. -/
abbrev SDFPin := String

/-- `PinTrans` from `src/types.rs`: the node identity of the timing graph. -/
abbrev PinTrans := SDFPin × Transition

/-- Index of a transition in its Rust `Ord` declaration order (`Rise < Fall`). -/
def Transition.idx : Transition → ℕ
  | .Rise => 0
  | .Fall => 1

/-- Strict order on `PinTrans` mirroring the derived Rust `Ord` on
`(String, Transition)`: lexicographic on the pin string, then the transition. -/
def ptLtb (a b : PinTrans) : Bool :=
  decide (a.1 < b.1) || (decide (a.1 = b.1) && decide (a.2.idx < b.2.idx))

/-- Non-strict order on `PinTrans` (the reflexive closure of `ptLtb`),
used to state sortedness of the endpoint lists. -/
def ptLE (a b : PinTrans) : Prop :=
  a.1 < b.1 ∨ (a.1 = b.1 ∧ a.2.idx ≤ b.2.idx)

instance : DecidableRel ptLE := fun a b => by
  unfold ptLE; infer_instance

instance : IsTotal PinTrans ptLE where
  total a b := by
    rcases lt_trichotomy a.1 b.1 with h | h | h
    · exact Or.inl (Or.inl h)
    · rcases Nat.le_total a.2.idx b.2.idx with h2 | h2
      · exact Or.inl (Or.inr ⟨h, h2⟩)
      · exact Or.inr (Or.inr ⟨h.symm, h2⟩)
    · exact Or.inr (Or.inl h)

instance : IsTrans PinTrans ptLE where
  trans a b c hab hbc := by
    rcases hab with h1 | ⟨e1, l1⟩
    · rcases hbc with h2 | ⟨e2, _⟩
      · exact Or.inl (h1.trans h2)
      · exact Or.inl (e2 ▸ h1)
    · rcases hbc with h2 | ⟨e2, l2⟩
      · exact Or.inl (e1 ▸ h2)
      · exact Or.inr ⟨e1.trans e2, l1.trans l2⟩

/-- Association-list model of Rust's `BTreeMap`; inserts keep the list sorted
by the supplied strict order, so that iteration is in key order. -/
abbrev OMap (K V : Type) := List (K × V)

namespace OMap

variable {K V : Type} [DecidableEq K]

/-- `BTreeMap::get`: find the value of a key (first matching entry). -/
def find? : OMap K V → K → Option V
  | [], _ => none
  | (k', v') :: rest, k => if k = k' then some v' else find? rest k

/-- `BTreeMap::contains_key`. -/
def contains (m : OMap K V) (k : K) : Bool :=
  (m.find? k).isSome

/-- `BTreeMap::insert`: insert at sorted position, replacing an equal key. -/
def insert (lt : K → K → Bool) : OMap K V → K → V → OMap K V
  | [], k, v => [(k, v)]
  | (k', v') :: rest, k, v =>
    if lt k k' then (k, v) :: (k', v') :: rest
    else if k = k' then (k, v) :: rest
    else (k', v') :: insert lt rest k v

theorem find?_insert (lt : K → K → Bool) (m : OMap K V) (k k' : K) (v : V) :
    find? (insert lt m k v) k' = if k' = k then some v else find? m k' := by
  induction m with
  | nil => simp [insert, find?]
  | cons hd tl ih =>
    obtain ⟨k₀, v₀⟩ := hd
    by_cases h1 : lt k k₀
    · simp [insert, h1, find?]
    · by_cases h2 : k = k₀
      · subst h2
        simp only [insert, if_neg h1, if_pos rfl]
        by_cases h3 : k' = k <;> simp [find?, h3]
      · simp only [insert, if_neg h1, if_neg h2]
        by_cases h3 : k' = k₀
        · subst h3
          have hne : ¬ k' = k := fun hc => h2 hc.symm
          simp [find?, hne]
        · simp [find?, h3, ih]

theorem find?_insert_self (lt : K → K → Bool) (m : OMap K V) (k : K) (v : V) :
    find? (insert lt m k v) k = some v := by
  simp [find?_insert]

theorem find?_insert_ne (lt : K → K → Bool) (m : OMap K V) {k k' : K} (v : V)
    (h : k' ≠ k) : find? (insert lt m k v) k' = find? m k' := by
  simp [find?_insert, h]

theorem contains_insert (lt : K → K → Bool) (m : OMap K V) (k k' : K) (v : V) :
    contains (insert lt m k v) k' = (k' = k || contains m k') := by
  by_cases h : k' = k
  · simp [contains, find?_insert, h]
  · simp [contains, find?_insert, h]

theorem find?_eq_none_of_all_ne {m : OMap K V} {k : K}
    (h : ∀ b ∈ m, k ≠ b.1) : find? m k = none := by
  induction m with
  | nil => simp [find?]
  | cons hd tl ih =>
    have hne : k ≠ hd.1 := h hd (by simp)
    have : find? (hd :: tl) k = find? tl k := by
      obtain ⟨k₀, v₀⟩ := hd
      simp only [find?, if_neg hne]
    rw [this]
    exact ih fun b hb => h b (by simp [hb])

/-- `find?` of a filtered map, assuming the keys are pairwise distinct
(as they are for any map built by sorted insertion). -/
theorem find?_filter (p : K × V → Bool) (m : OMap K V)
    (hnd : m.Pairwise (fun a b => a.1 ≠ b.1)) (k : K) :
    find? (m.filter p) k =
      match find? m k with
      | some v => if p (k, v) then some v else none
      | none => none := by
  induction m with
  | nil => simp [find?]
  | cons hd tl ih =>
    obtain ⟨k₀, v₀⟩ := hd
    have hnd' : tl.Pairwise (fun a b => a.1 ≠ b.1) := hnd.of_cons
    have hne : ∀ b ∈ tl, k₀ ≠ b.1 := fun b hb => (List.pairwise_cons.mp hnd).1 b hb
    by_cases h : k = k₀
    · subst h
      by_cases hp : p (k, v₀)
      · simp only [List.filter_cons, if_pos (by simpa using hp), find?, if_pos rfl]
        simp [hp]
      · simp only [List.filter_cons]
        rw [if_neg (by simpa using hp)]
        rw [ih hnd']
        have hnone : find? tl k = none := find?_eq_none_of_all_ne hne
        simp [find?, hnone, hp]
    · by_cases hp : p (k₀, v₀)
      · simp only [List.filter_cons, if_pos (by simpa using hp), find?, if_neg h]
        exact ih hnd'
      · simp only [List.filter_cons]
        rw [if_neg (by simpa using hp)]
        rw [ih hnd']
        simp [find?, if_neg h]

end OMap

theorem ptLtb_irrefl (a : PinTrans) : ptLtb a a = false := by
  simp [ptLtb]

theorem ptLtb_trans {a b c : PinTrans} (h1 : ptLtb a b = true) (h2 : ptLtb b c = true) :
    ptLtb a c = true := by
  simp only [ptLtb, Bool.or_eq_true, Bool.and_eq_true, decide_eq_true_eq] at h1 h2 ⊢
  rcases h1 with h1 | ⟨e1, l1⟩
  · rcases h2 with h2 | ⟨e2, _⟩
    · exact Or.inl (h1.trans h2)
    · exact Or.inl (e2 ▸ h1)
  · rcases h2 with h2 | ⟨e2, l2⟩
    · exact Or.inl (e1 ▸ h2)
    · exact Or.inr ⟨e1.trans e2, l1.trans l2⟩

theorem Transition.idx_inj : ∀ {a b : Transition}, a.idx = b.idx → a = b := by
  intro a b
  cases a <;> cases b <;> simp [Transition.idx]

theorem ptLtb_conn {a b : PinTrans} (h1 : ptLtb a b = false) (h2 : ptLtb b a = false) :
    a = b := by
  simp only [ptLtb, Bool.or_eq_false_iff, Bool.and_eq_false_iff,
    decide_eq_false_iff_not] at h1 h2
  obtain ⟨hab, hor1⟩ := h1
  obtain ⟨hba, hor2⟩ := h2
  have hs : a.1 = b.1 := le_antisymm (not_lt.mp hba) (not_lt.mp hab)
  have ht : a.2 = b.2 := by
    rcases hor1 with h | h
    · exact absurd hs h
    · rcases hor2 with h' | h'
      · exact absurd hs.symm h'
      · exact Transition.idx_inj (le_antisymm (not_lt.mp h') (not_lt.mp h))
  exact Prod.ext hs ht

namespace OMap

variable {K V : Type} [DecidableEq K]

theorem mem_insert (lt : K → K → Bool) (m : OMap K V) (k : K) (v : V) :
    ∀ x ∈ insert lt m k v, x = (k, v) ∨ x ∈ m := by
  induction m with
  | nil => simp [insert]
  | cons hd tl ih =>
    obtain ⟨k₀, v₀⟩ := hd
    intro x hx
    by_cases h1 : lt k k₀
    · simp only [insert, if_pos h1] at hx
      rcases List.mem_cons.mp hx with h | h
      · exact Or.inl h
      · exact Or.inr h
    · by_cases h2 : k = k₀
      · simp only [insert, if_neg h1, if_pos h2] at hx
        rcases List.mem_cons.mp hx with h | h
        · exact Or.inl h
        · exact Or.inr (by simp [h])
      · simp only [insert, if_neg h1, if_neg h2] at hx
        rcases List.mem_cons.mp hx with h | h
        · exact Or.inr (by simp [h])
        · rcases ih x h with h' | h'
          · exact Or.inl h'
          · exact Or.inr (by simp [h'])

/-- Sorted insertion preserves strict sortedness of the keys, for any strict
order that is transitive and connected. -/
theorem pairwise_insert (lt : K → K → Bool)
    (htrans : ∀ {a b c : K}, lt a b = true → lt b c = true → lt a c = true)
    (hconn : ∀ {a b : K}, lt a b = false → lt b a = false → a = b)
    (m : OMap K V) (k : K) (v : V)
    (hs : m.Pairwise (fun a b => lt a.1 b.1 = true)) :
    (insert lt m k v).Pairwise (fun a b => lt a.1 b.1 = true) := by
  induction m with
  | nil => simp [insert]
  | cons hd tl ih =>
    obtain ⟨k₀, v₀⟩ := hd
    obtain ⟨hhd, htl⟩ := List.pairwise_cons.mp hs
    by_cases h1 : lt k k₀
    · simp only [insert, if_pos h1]
      refine List.pairwise_cons.mpr ⟨?_, hs⟩
      intro x hx
      rcases List.mem_cons.mp hx with h | h
      · simpa [h] using h1
      · exact htrans h1 (hhd x h)
    · by_cases h2 : k = k₀
      · simp only [insert, if_neg h1, if_pos h2]
        exact List.pairwise_cons.mpr ⟨fun x hx => h2 ▸ hhd x hx, htl⟩
      · simp only [insert, if_neg h1, if_neg h2]
        refine List.pairwise_cons.mpr ⟨?_, ih htl⟩
        intro x hx
        rcases mem_insert lt tl k v x hx with h | h
        · subst h
          by_cases h3 : lt k₀ k
          · exact h3
          · exact absurd (hconn (Bool.eq_false_iff.mpr h1) (Bool.eq_false_iff.mpr h3)) h2
        · exact hhd x h

omit [DecidableEq K] in
theorem pairwise_ne_of_pairwise_lt (lt : K → K → Bool)
    (hirr : ∀ a : K, lt a a = false) (m : OMap K V)
    (hs : m.Pairwise (fun a b => lt a.1 b.1 = true)) :
    m.Pairwise (fun a b => a.1 ≠ b.1) := by
  refine hs.imp ?_
  intro a b hab heq
  rw [heq] at hab
  rw [hirr b.1] at hab
  exact absurd hab (by simp)

end OMap

/-- `SDFEdge` from `src/graph.rs`: destination transition-pin and delay. -/
structure SDFEdge where
  dst : PinTrans
  delay : ℚ
deriving DecidableEq, Repr

/-- The adjacency-map type `PinTransMap<Vec<SDFEdge>>`. -/
abbrev EdgeMap := OMap PinTrans (List SDFEdge)

/-- `graph.entry(k).or_insert_with(Vec::new).push(e)` from `SDFGraph::new`. -/
def pushEdge (m : EdgeMap) (k : PinTrans) (e : SDFEdge) : EdgeMap :=
  match OMap.find? m k with
  | some es => OMap.insert ptLtb m k (es ++ [e])
  | none => OMap.insert ptLtb m k [e]

/-- `graph.entry(k).or_insert_with(Vec::new)` (key creation only). -/
def ensureKey (m : EdgeMap) (k : PinTrans) : EdgeMap :=
  match OMap.find? m k with
  | some _ => m
  | none => OMap.insert ptLtb m k []

/-- Number of edges from `u` to `v` with delay `d` recorded in the map. -/
def edgeCount (m : EdgeMap) (u v : PinTrans) (d : ℚ) : ℕ :=
  ((OMap.find? m u).getD []).countP (fun e => decide (e.dst = v ∧ e.delay = d))

theorem edgeCount_pushEdge (m : EdgeMap) (k : PinTrans) (e : SDFEdge)
    (u v : PinTrans) (d : ℚ) :
    edgeCount (pushEdge m k e) u v d =
      edgeCount m u v d + (if u = k ∧ v = e.dst ∧ d = e.delay then 1 else 0) := by
  unfold pushEdge edgeCount
  by_cases hu : u = k
  · subst hu
    cases hfind : OMap.find? m u with
    | some es =>
      dsimp only
      rw [OMap.find?_insert_self]
      simp only [Option.getD_some, List.countP_append]
      by_cases hc : v = e.dst ∧ d = e.delay
      · simp [hc.1, hc.2, List.countP_cons]
      · have hne : ¬ (e.dst = v ∧ e.delay = d) := fun ⟨h1, h2⟩ => hc ⟨h1.symm, h2.symm⟩
        simp [List.countP_cons, hne, hc]
    | none =>
      dsimp only
      rw [OMap.find?_insert_self]
      simp only [Option.getD_some, Option.getD_none]
      by_cases hc : v = e.dst ∧ d = e.delay
      · simp [hc.1, hc.2, List.countP_cons]
      · have hne : ¬ (e.dst = v ∧ e.delay = d) := fun ⟨h1, h2⟩ => hc ⟨h1.symm, h2.symm⟩
        simp [List.countP_cons, hne, hc]
  · have hne : ¬ (u = k ∧ v = e.dst ∧ d = e.delay) := fun h => hu h.1
    cases hfind : OMap.find? m k with
    | some es => dsimp only; rw [OMap.find?_insert_ne _ _ _ hu]; simp [hne]
    | none => dsimp only; rw [OMap.find?_insert_ne _ _ _ hu]; simp [hne]

theorem edgeCount_ensureKey (m : EdgeMap) (k : PinTrans) (u v : PinTrans) (d : ℚ) :
    edgeCount (ensureKey m k) u v d = edgeCount m u v d := by
  unfold ensureKey edgeCount
  by_cases hu : u = k
  · subst hu
    cases hfind : OMap.find? m u with
    | some es => dsimp only; rw [hfind]
    | none => dsimp only; rw [OMap.find?_insert_self]; simp
  · cases hfind : OMap.find? m k with
    | some es => dsimp only
    | none => dsimp only; rw [OMap.find?_insert_ne _ _ _ hu]

theorem contains_pushEdge (m : EdgeMap) (k : PinTrans) (e : SDFEdge) (u : PinTrans) :
    OMap.contains (pushEdge m k e) u = (decide (u = k) || OMap.contains m u) := by
  unfold pushEdge
  by_cases hu : u = k
  · subst hu
    cases hfind : OMap.find? m u with
    | some es => dsimp only; simp [OMap.contains, OMap.find?_insert_self]
    | none => dsimp only; simp [OMap.contains, OMap.find?_insert_self]
  · cases hfind : OMap.find? m k with
    | some es => dsimp only; simp [OMap.contains, OMap.find?_insert_ne _ _ _ hu, hu]
    | none => dsimp only; simp [OMap.contains, OMap.find?_insert_ne _ _ _ hu, hu]

theorem contains_ensureKey (m : EdgeMap) (k : PinTrans) (u : PinTrans) :
    OMap.contains (ensureKey m k) u = (decide (u = k) || OMap.contains m u) := by
  unfold ensureKey
  by_cases hu : u = k
  · subst hu
    cases hfind : OMap.find? m u with
    | some es => dsimp only; simp [OMap.contains, hfind]
    | none => dsimp only; simp [OMap.contains, OMap.find?_insert_self]
  · cases hfind : OMap.find? m k with
    | some es => dsimp only; simp [hu]
    | none => dsimp only; simp [OMap.contains, OMap.find?_insert_ne _ _ _ hu, hu]

theorem contains_of_edgeCount_pos {m : EdgeMap} {u v : PinTrans} {d : ℚ}
    (h : 0 < edgeCount m u v d) : OMap.contains m u = true := by
  unfold edgeCount at h
  cases hfind : OMap.find? m u with
  | some es => simp [OMap.contains, hfind]
  | none => rw [hfind] at h; simp at h

/-! ## SDF input structures (from the `sdfparse` fork consumed by the builder) -/

/-- `SDFBus` from `sdfparse`: optional bus subscript on a path or port. -/
inductive SDFBus
  | none
  | singleBit (b : Int)
  | bitRange (a b : Int)
deriving DecidableEq, Repr

/-- `SDFPath` from `sdfparse`: one instance/pin path. -/
structure SDFPath where
  path : List String
  bus : SDFBus
deriving DecidableEq, Repr

/-- `SDFPort` from `sdfparse`. -/
structure SDFPort where
  port_name : String
  bus : SDFBus
deriving DecidableEq, Repr

/-- `SDFPortEdge` from `sdfparse`: edge qualifier on a port. -/
inductive SDFPortEdge
  | none
  | posedge
  | negedge
  | t01
  | t10
  | t0z
  | tz1
  | t1z
  | tz0
deriving DecidableEq, Repr

/-- `SDFPortSpec` from `sdfparse`: a port with an edge specification. -/
structure SDFPortSpec where
  edge_type : SDFPortEdge
  port : SDFPort
deriving DecidableEq, Repr

/-- `SDFValue` from `sdfparse`: a delay value with at most three corners. -/
inductive SDFValue
  | none
  | single (v : ℚ)
  | multi (a b c : Option ℚ)
deriving DecidableEq, Repr

/-- `SDFDelayInterconnect` from `sdfparse`. -/
structure SDFDelayInterconnect where
  a : SDFPath
  b : SDFPath
  delay : List SDFValue
deriving DecidableEq, Repr

/-- `SDFDelayIOPath` from `sdfparse`. -/
structure SDFDelayIOPath where
  a : SDFPortSpec
  b : SDFPort
  retain : Option (List SDFValue)
  delay : List SDFValue
deriving DecidableEq, Repr

/-- `SDFIOPathCond` from `sdfparse`. -/
inductive SDFIOPathCond
  | none
  | cond (c : List (SDFPort × Bool))
  | condElse
deriving DecidableEq, Repr

/-- `SDFDelay` from `sdfparse`. -/
inductive SDFDelay
  | interconnect (i : SDFDelayInterconnect)
  | ioPath (cond : SDFIOPathCond) (io : SDFDelayIOPath)
deriving DecidableEq, Repr

/-- `SDFCell` from `sdfparse` (`instance` is called `inst` here: it is a
reserved word in Lean). -/
structure SDFCell where
  celltype : String
  inst : Option SDFPath
  delays : List SDFDelay
deriving DecidableEq, Repr

/-- `SDF` from `sdfparse`; the header is not consumed by the graph builder
and is omitted. -/
structure SDF where
  cells : List SDFCell
deriving DecidableEq, Repr

/-- `TriUnate` from `src/types.rs`. -/
inductive TriUnate
  | Positive
  | Negative
  | Non
deriving DecidableEq, Repr

/-- `UnatenessData` from `src/graph.rs`: celltype → pin → unateness.
The table contents come from the embedded resource `unateness.json`, which is
not part of the sources; the table is therefore a parameter of the builder
here rather than a constant. -/
structure UnatenessData where
  data : OMap String (OMap String TriUnate)
deriving DecidableEq, Repr

/-! ## Name helpers from `src/graph.rs` and `src/lib.rs` -/

/-- `s.starts_with(p)` on character lists (`p` is the pattern). -/
def hasPrefix : List Char → List Char → Bool
  | [], _ => true
  | _ :: _, [] => false
  | a :: as, b :: bs => a = b && hasPrefix as bs

theorem length_le_of_hasPrefix : ∀ {p s : List Char}, hasPrefix p s = true → p.length ≤ s.length := by
  intro p
  induction p with
  | nil => intro s _; simp
  | cons a as ih =>
    intro s h
    cases s with
    | nil => simp [hasPrefix] at h
    | cons b bs =>
      simp only [hasPrefix, Bool.and_eq_true] at h
      simpa using ih h.2

/-- The stripping loop of `str::trim_start_matches`. Each successful strip
removes at least one character, so the character count of the subject string
bounds the iterations; when the bound runs out the string is already empty
and the loop would stop anyway. -/
def trimStartMatchesGo (p : List Char) : ℕ → List Char → List Char
  | 0, s => s
  | n + 1, s =>
    if p.isEmpty then s
    else if hasPrefix p s then trimStartMatchesGo p n (s.drop p.length)
    else s

/-- Rust `str::trim_start_matches`: repeatedly strip the prefix `p`. -/
def trimStartMatches (p : List Char) (s : List Char) : List Char :=
  trimStartMatchesGo p s.length s

/-- `str::split_once` on character lists: split at the first occurrence of `c`. -/
def splitOnceAux (c : Char) : List Char → Option (List Char × List Char)
  | [] => none
  | x :: xs =>
    if x = c then some ([], xs)
    else (splitOnceAux c xs).map (fun p => (x :: p.1, p.2))

/-- `str::rsplit_once`: split at the last occurrence of `c`, returning
(before, after). -/
def rsplitOnce (c : Char) (s : List Char) : Option (List Char × List Char) :=
  (splitOnceAux c s.reverse).map (fun p => (p.2.reverse, p.1.reverse))

/-- `celltype_short` from `src/lib.rs`: strip the `sky130_fd_sc_hd__` vendor
prefix and drop the trailing `_<size>` part; the Rust code panics (`unwrap`)
when there is no underscore, modelled by `none`. -/
def celltype_short (celltype : String) : Option String :=
  let t := trimStartMatches "sky130_fd_sc_hd__".data celltype.data
  (rsplitOnce '_' t).map (fun p => String.mk p.1)

/-- `unique_name` from `src/graph.rs`: join the path parts (renamed through
`renaming`) with `/` and append the optional bus subscript; `BitRange` is
`unimplemented!` in the Rust code, modelled by `none`. -/
def unique_name (path : SDFPath) (renamingMap : OMap String String) : Option String :=
  let name := String.intercalate "/" (path.path.map (fun part => (OMap.find? renamingMap part).getD part))
  match path.bus with
  | SDFBus.none => some name
  | SDFBus.singleBit b => some (name ++ "[" ++ toString b ++ "]")
  | SDFBus.bitRange _ _ => Option.none

/-- `unique_name_port` from `src/graph.rs`. -/
def unique_name_port (cell_name : String) (port : SDFPort) : Option String :=
  let name := cell_name ++ "/" ++ port.port_name
  match port.bus with
  | SDFBus.none => some name
  | SDFBus.singleBit b => some (name ++ "[" ++ toString b ++ "]")
  | SDFBus.bitRange _ _ => Option.none

/-- `extract_delay` from `src/graph.rs`: take the min corner, defaulting to 0. -/
def extract_delay : SDFValue → ℚ
  | SDFValue.none => 0
  | SDFValue.single v => v
  | SDFValue.multi v _ _ => v.getD 0

/-- `parse_delays` from `src/graph.rs`: one value is used for both rise and
fall; two values are (rise, fall); anything else panics, modelled by `none`. -/
def parse_delays : List SDFValue → Option (ℚ × ℚ)
  | [updown] => let v := extract_delay updown; some (v, v)
  | [up, down] => some (extract_delay up, extract_delay down)
  | _ => Option.none

/-- `DO_RENAMING` from `src/graph.rs` is statically `false`, so the renaming
map stays empty throughout construction. -/
def DO_RENAMING : Bool := false

/-! ## The graph builder `SDFGraph::new` (`src/graph.rs`) -/

/-- Strict order on `String` mirroring Rust's `Ord`. -/
def strLtb (a b : String) : Bool := decide (a < b)

/-- `BTreeSet<String>::insert`: sorted insertion without duplicates. -/
def setInsert : List String → String → List String
  | [], x => [x]
  | y :: ys, x =>
    if strLtb x y then x :: y :: ys
    else if x = y then y :: ys
    else y :: setInsert ys x

/-- `SDFGraph` from `src/graph.rs`. -/
structure SDFGraph where
  graph : EdgeMap
  reverse_graph : EdgeMap
  instance_celltype : OMap String String
  instance_ins : OMap String (List String)
  instance_outs : OMap String (List String)
  instance_fanout : OMap String (List String)
  inputs : List PinTrans
  outputs : List PinTrans
deriving DecidableEq, Repr

/-- The builder's accumulating state while walking the SDF cells. -/
structure BuildState where
  graph : EdgeMap
  reverse_graph : EdgeMap
  instance_celltype : OMap String String
  instance_ins : OMap String (List String)
  instance_outs : OMap String (List String)
  instance_fanout : OMap String (List String)
  regs_d : List PinTrans
  regs_q : List PinTrans
deriving DecidableEq, Repr

/-- The empty initial builder state. -/
def initState : BuildState := ⟨[], [], [], [], [], [], [], []⟩

/-- The `match unate { ... }` block of `SDFGraph::new` that emits the IOPATH
edges into the forward and reverse maps, in source order. -/
def emitIOPath (u : TriUnate) (a_name b_name : SDFPin) (up down : ℚ)
    (g rg : EdgeMap) : EdgeMap × EdgeMap :=
  match u with
  | TriUnate.Positive =>
    let g := pushEdge g (a_name, Transition.Rise) ⟨(b_name, Transition.Rise), up⟩
    let g := pushEdge g (a_name, Transition.Fall) ⟨(b_name, Transition.Fall), down⟩
    let rg := pushEdge rg (b_name, Transition.Rise) ⟨(a_name, Transition.Rise), up⟩
    let rg := pushEdge rg (b_name, Transition.Fall) ⟨(a_name, Transition.Fall), down⟩
    (g, rg)
  | TriUnate.Negative =>
    let g := pushEdge g (a_name, Transition.Rise) ⟨(b_name, Transition.Fall), down⟩
    let g := pushEdge g (a_name, Transition.Fall) ⟨(b_name, Transition.Rise), up⟩
    let rg := pushEdge rg (b_name, Transition.Rise) ⟨(a_name, Transition.Fall), up⟩
    let rg := pushEdge rg (b_name, Transition.Fall) ⟨(a_name, Transition.Rise), down⟩
    let rg := ensureKey rg (a_name, Transition.Rise)
    let rg := ensureKey rg (a_name, Transition.Fall)
    (g, rg)
  | TriUnate.Non =>
    let g := pushEdge g (a_name, Transition.Rise) ⟨(b_name, Transition.Rise), up⟩
    let g := pushEdge g (a_name, Transition.Fall) ⟨(b_name, Transition.Fall), down⟩
    let g := pushEdge g (a_name, Transition.Rise) ⟨(b_name, Transition.Fall), down⟩
    let g := pushEdge g (a_name, Transition.Fall) ⟨(b_name, Transition.Rise), up⟩
    let rg := pushEdge rg (b_name, Transition.Rise) ⟨(a_name, Transition.Rise), up⟩
    let rg := pushEdge rg (b_name, Transition.Fall) ⟨(a_name, Transition.Fall), down⟩
    let rg := pushEdge rg (b_name, Transition.Rise) ⟨(a_name, Transition.Fall), up⟩
    let rg := pushEdge rg (b_name, Transition.Fall) ⟨(a_name, Transition.Rise), down⟩
    (g, rg)

/-- Processing of one `SDFDelay` item of a cell inside `SDFGraph::new`.
Rust panics (`BitRange`, bad delay lists, unsupported conditions/edge types,
missing unateness entries) are modelled by `none`. -/
def processDelay (unate : UnatenessData) (cell_name celltype : String)
    (st : BuildState) (d : SDFDelay) : Option BuildState :=
  match d with
  | SDFDelay.interconnect inter => do
    let (up, down) ← parse_delays inter.delay
    let a_name ← unique_name inter.a []
    let b_name ← unique_name inter.b []
    let fanout :=
      match rsplitOnce '/' a_name.data with
      | some (instance_a, _) =>
        OMap.insert strLtb st.instance_fanout (String.mk instance_a)
          (setInsert ((OMap.find? st.instance_fanout (String.mk instance_a)).getD []) b_name)
      | none => st.instance_fanout
    let g := pushEdge st.graph (a_name, Transition.Rise) ⟨(b_name, Transition.Rise), up⟩
    let g := pushEdge g (a_name, Transition.Fall) ⟨(b_name, Transition.Fall), down⟩
    let g := ensureKey g (b_name, Transition.Rise)
    let g := ensureKey g (b_name, Transition.Fall)
    let rg := pushEdge st.reverse_graph (b_name, Transition.Rise) ⟨(a_name, Transition.Rise), up⟩
    let rg := ensureKey rg (a_name, Transition.Rise)
    let rg := pushEdge rg (b_name, Transition.Fall) ⟨(a_name, Transition.Fall), down⟩
    let rg := ensureKey rg (a_name, Transition.Fall)
    let rg := ensureKey rg (b_name, Transition.Rise)
    some { st with graph := g, reverse_graph := rg, instance_fanout := fanout }
  | SDFDelay.ioPath cond io => do
    let cshort ← celltype_short celltype
    let unate_pins ← OMap.find? unate.data cshort
    match cond with
    | SDFIOPathCond.none =>
      match io.a.edge_type with
      | SDFPortEdge.none => do
        let a_name ← unique_name_port cell_name io.a.port
        let b_name ← unique_name_port cell_name io.b
        let ins := OMap.insert strLtb st.instance_ins cell_name
          (setInsert ((OMap.find? st.instance_ins cell_name).getD []) a_name)
        let outs := OMap.insert strLtb st.instance_outs cell_name
          (setInsert ((OMap.find? st.instance_outs cell_name).getD []) b_name)
        let rd :=
          if io.a.port.port_name = "CLK" ∧ io.b.port_name = "Q" then
            st.regs_d ++ [(cell_name ++ "/D", Transition.Rise), (cell_name ++ "/D", Transition.Fall)]
          else st.regs_d
        let rq :=
          if io.a.port.port_name = "CLK" ∧ io.b.port_name = "Q" then
            st.regs_q ++ [(cell_name ++ "/Q", Transition.Rise), (cell_name ++ "/Q", Transition.Fall)]
          else st.regs_q
        let (up, down) ← parse_delays io.delay
        let u ← OMap.find? unate_pins io.a.port.port_name
        let (g, rg) := emitIOPath u a_name b_name up down st.graph st.reverse_graph
        let g := ensureKey g (b_name, Transition.Rise)
        let g := ensureKey g (b_name, Transition.Fall)
        let rg := ensureKey rg (a_name, Transition.Rise)
        let rg := ensureKey rg (a_name, Transition.Fall)
        some { st with graph := g, reverse_graph := rg, instance_ins := ins,
                       instance_outs := outs, regs_d := rd, regs_q := rq }
      | _ => Option.none
    | _ => Option.none

/-- Processing of one SDF cell inside `SDFGraph::new`. -/
def processCell (unate : UnatenessData) (st : BuildState) (cell : SDFCell) :
    Option BuildState := do
  let cell_name ← unique_name (cell.inst.getD ⟨[], SDFBus.none⟩) []
  let st := { st with
    instance_celltype := OMap.insert strLtb st.instance_celltype cell_name cell.celltype }
  cell.delays.foldlM (processDelay unate cell_name cell.celltype) st

/-- The cells loop of `SDFGraph::new`. -/
def buildSt (sdf : SDF) (unate : UnatenessData) : Option BuildState :=
  sdf.cells.foldlM (processCell unate) initState

/-- `Vec::sort_unstable` on the endpoint lists. -/
def sortPT (l : List PinTrans) : List PinTrans := List.insertionSort ptLE l

/-- The primary-output scan of `SDFGraph::new`: forward-map keys with an
empty edge list, sorted. -/
def baseOutputs (st : BuildState) : List PinTrans :=
  sortPT ((st.graph.filter (fun kv => kv.2.isEmpty)).map Prod.fst)

/-- The primary-input scan of `SDFGraph::new`: reverse-map keys with an
empty edge list, sorted. -/
def baseInputs (st : BuildState) : List PinTrans :=
  sortPT ((st.reverse_graph.filter (fun kv => kv.2.isEmpty)).map Prod.fst)

/-- Clock-net detection of `SDFGraph::new`. -/
def clkOf (st : BuildState) : Option String :=
  if OMap.contains st.graph ("clk", Transition.Rise) then some "clk"
  else if OMap.contains st.graph ("clock", Transition.Rise) then some "clock"
  else none

/-- Reset-net detection of `SDFGraph::new`. -/
def rstOf (st : BuildState) : Option String :=
  if OMap.contains st.graph ("rst", Transition.Rise) then some "rst"
  else if OMap.contains st.graph ("reset", Transition.Rise) then some "reset"
  else if OMap.contains st.graph ("resetn", Transition.Rise) then some "resetn"
  else none

/-- The `inputs.retain(..)` step: drop clock and reset nodes. -/
def retainedInputs (st : BuildState) : List PinTrans :=
  (baseInputs st).filter
    (fun v => !decide (some v.1 = clkOf st) && !decide (some v.1 = rstOf st))

/-- `SDFGraph::new` from `src/graph.rs`. Since `DO_RENAMING` is `false` the
renaming map is empty. The unateness table is passed in (its contents live in
the embedded `unateness.json`, which is not part of the sources). -/
def buildNew (sdf : SDF) (unate : UnatenessData) : Option SDFGraph := do
  let st ← buildSt sdf unate
  some {
    graph := st.graph
    reverse_graph := st.reverse_graph
    instance_celltype := st.instance_celltype
    instance_ins := st.instance_ins
    instance_outs := st.instance_outs
    instance_fanout := st.instance_fanout
    inputs := retainedInputs st ++ st.regs_q
    outputs := baseOutputs st ++ st.regs_d }

/-! ## The analyzer `SDFGraphAnalyzed::analyze` (`src/analysis.rs`) -/

/-- The value type of the delay maps: Rust `f32` restricted to the values the
analyzer produces, with `none` modelling the `f32::NAN` sentinel. -/
abbrev FVal := Option ℚ

/-- `f32` addition as used on delay values: NaN propagates. -/
def fadd (a : FVal) (d : ℚ) : FVal := a.map (· + d)

/-- `f32::max`: returns the other argument when one is NaN. -/
def fmax : FVal → FVal → FVal
  | Option.none, b => b
  | some a, Option.none => some a
  | some a, some b => some (max a b)

/-- `f32` equality (`==`): false whenever either side is NaN. -/
def feq : FVal → FVal → Bool
  | some a, some b => decide (a = b)
  | _, _ => false

/-- Outcome of running embedded Rust code: a value, a panic, or — for the
analyzer's unbounded recursion — exhaustion of the explicit fuel bound. -/
inductive Res (α : Type)
  | ok (a : α)
  | panicked
  | outOfFuel
deriving DecidableEq, Repr

instance : Monad Res where
  pure := Res.ok
  bind := fun r f =>
    match r with
    | Res.ok a => f a
    | Res.panicked => Res.panicked
    | Res.outOfFuel => Res.outOfFuel

/-- A panicking `BTreeMap` index (`map[key]` / `unwrap`). -/
def liftOpt : Option α → Res α
  | some a => Res.ok a
  | none => Res.panicked

/-- The `for edge in bw_edges` loop of `visit`, accumulating the running
`max` and threading the mutated memo map; `rec` is the recursive `visit`
call (one nesting level deeper). -/
def visitFold (rec : OMap PinTrans FVal → PinTrans → Res (OMap PinTrans FVal)) :
    List SDFEdge → OMap PinTrans FVal → FVal → Res (OMap PinTrans FVal × FVal)
  | [], md, mx => Res.ok (md, mx)
  | edge :: rest, md, mx =>
    match OMap.find? md edge.dst with
    | Option.none =>
      match rec md edge.dst with
      | Res.ok md' =>
        match OMap.find? md' edge.dst with
        | some dval => visitFold rec rest md' (fmax mx (fadd dval edge.delay))
        | Option.none => Res.panicked
      | Res.panicked => Res.panicked
      | Res.outOfFuel => Res.outOfFuel
    | some dval => visitFold rec rest md (fmax mx (fadd dval edge.delay))

/-- `visit` from `SDFGraphAnalyzed::analyze`: memoized longest-path recursion
over the predecessor edges `bw`. The Rust recursion is unbounded; `fuel`
bounds the nesting depth here, with `outOfFuel` when it is exceeded, and a
`panicked` outcome models the panicking `bw` lookup. -/
def visit (bw : PinTrans → Option (List SDFEdge)) :
    ℕ → OMap PinTrans FVal → PinTrans → Res (OMap PinTrans FVal)
  | 0, _, _ => Res.outOfFuel
  | fuel + 1, md, node =>
    match bw node with
    | Option.none => Res.panicked
    | some bw_edges =>
      if bw_edges.isEmpty then Res.ok (OMap.insert ptLtb md node Option.none)
      else
        match visitFold (visit bw fuel) bw_edges md Option.none with
        | Res.ok (md', mx) => Res.ok (OMap.insert ptLtb md' node mx)
        | Res.panicked => Res.panicked
        | Res.outOfFuel => Res.outOfFuel

/-- `delay_pass` from `SDFGraphAnalyzed::analyze`: seed `init` with 0, visit
every remaining key, then purge NaN entries. -/
def delay_pass (fuel : ℕ) (init : List PinTrans) (all_keys : List PinTrans)
    (bw : PinTrans → Option (List SDFEdge)) : Res (OMap PinTrans FVal) := do
  let md := init.foldl (fun md v => OMap.insert ptLtb md v (some 0)) ([] : OMap PinTrans FVal)
  let md ← all_keys.foldlM (fun md v =>
    if OMap.contains md v then Res.ok md else visit bw fuel md v) md
  pure (md.filter (fun kv => kv.2.isSome))

/-- `SDFGraphAnalyzed` from `src/analysis.rs`. -/
structure SDFGraphAnalyzed where
  max_delay : OMap PinTrans FVal
  max_delay_backwards : OMap PinTrans FVal
deriving DecidableEq, Repr

/-- `SDFGraphAnalyzed::analyze`: the forward pass walks the forward keys
using reverse edges (panicking on a missing reverse entry), the backward pass
walks the reverse keys using forward edges. -/
def analyze (fuel : ℕ) (g : SDFGraph) : Res SDFGraphAnalyzed := do
  let md ← delay_pass fuel g.inputs (g.graph.map Prod.fst)
    (fun n => OMap.find? g.reverse_graph n)
  let mdb ← delay_pass fuel g.outputs (g.reverse_graph.map Prod.fst)
    (fun n => OMap.find? g.graph n)
  pure ⟨md, mdb⟩

/-! ## The path extractor `SDFGraphAnalyzed::extract_path` (`src/analysis.rs`) -/

/-- `find_prev` from `extract_path`: scan the reverse edges of `node`,
remembering the last predecessor whose arrival plus edge delay equals the
node's arrival under `f32` equality. Both map indexings panic when absent. -/
def find_prev (g : SDFGraph) (node : PinTrans) (max_delay : OMap PinTrans FVal) :
    Res (Option (PinTrans × FVal)) := do
  let edges ← liftOpt (OMap.find? g.reverse_graph node)
  let delay ← liftOpt (OMap.find? max_delay node)
  pure (edges.foldl (fun prev edge =>
    match OMap.find? max_delay edge.dst with
    | Option.none => prev
    | some prev_delay =>
      if feq (fadd prev_delay edge.delay) delay then some (edge.dst, prev_delay) else prev)
    Option.none)

/-- The `while let` loop of `extract_path`, with fuel bounding the number of
iterations (the Rust loop is unbounded). -/
def extract_path_loop (g : SDFGraph) (md : OMap PinTrans FVal) :
    ℕ → PinTrans → List (PinTrans × FVal) → Res (List (PinTrans × FVal))
  | 0, _, _ => Res.outOfFuel
  | fuel + 1, node, path =>
    match find_prev g node md with
    | Res.ok Option.none => Res.ok path.reverse
    | Res.ok (some (prev_node, delay)) =>
      extract_path_loop g md fuel prev_node (path ++ [(prev_node, delay)])
    | Res.panicked => Res.panicked
    | Res.outOfFuel => Res.outOfFuel

/-- `SDFGraphAnalyzed::extract_path` from `src/analysis.rs`. -/
def extract_path (fuel : ℕ) (a : SDFGraphAnalyzed) (g : SDFGraph)
    (output : PinTrans) : Res (List (PinTrans × FVal)) :=
  extract_path_loop g a.max_delay fuel output []

/-! ## Transistor binning (`src/spice.rs`) -/

/-- The PFET width bin table from `pfet_size`. -/
def BINS_PFET : List ℚ :=
  [0.36, 0.42, 0.54, 0.55, 0.63, 0.64, 0.70, 0.75, 0.79, 0.82, 0.84, 0.86,
   0.94, 1.00, 1.12, 1.26, 1.65, 1.68, 2.00, 3.00, 5.00, 7.00]

/-- The NFET width bin table from `nfet_size`. -/
def BINS_NFET : List ℚ :=
  [0.36, 0.39, 0.42, 0.52, 0.54, 0.55, 0.58, 0.6, 0.61, 0.64, 0.65, 0.74,
   0.84, 1.0, 1.26, 1.68, 2.0, 3.0, 5.0, 7.0]

/-- `pfet_size` from `src/spice.rs`. On the strictly increasing bin table,
`binary_search_by` yields — for a hit and for a miss alike — the number of
entries strictly below `w`, clamped to the last index. -/
def pfet_size (w : ℚ) : ℚ × ℚ :=
  let pos := BINS_PFET.countP (fun v => decide (v < w))
  let closest_bin := BINS_PFET.getD (min pos (BINS_PFET.length - 1)) 0
  (closest_bin, w / closest_bin)

/-- `nfet_size` from `src/spice.rs`; same shape as `pfet_size` over the NFET
bin table. -/
def nfet_size (w : ℚ) : ℚ × ℚ :=
  let pos := BINS_NFET.countP (fun v => decide (v < w))
  let closest_bin := BINS_NFET.getD (min pos (BINS_NFET.length - 1)) 0
  (closest_bin, w / closest_bin)

def testUnate : UnatenessData := ⟨[("dfxtp", [("CLK", TriUnate.Non)])]⟩

def c7sdf : SDF := ⟨[
  { celltype := "sky130_fd_sc_hd__dfxtp_1",
    inst := some ⟨["dff"], SDFBus.none⟩,
    delays := [SDFDelay.ioPath SDFIOPathCond.none
      { a := ⟨SDFPortEdge.none, ⟨"CLK", SDFBus.none⟩⟩,
        b := ⟨"Q", SDFBus.none⟩,
        retain := Option.none,
        delay := [SDFValue.single 0.4, SDFValue.single 0.4] }] },
  { celltype := "top", inst := Option.none,
    delays := [
      SDFDelay.interconnect ⟨⟨["clk"], SDFBus.none⟩, ⟨["dff", "CLK"], SDFBus.none⟩,
        [SDFValue.single 0.7, SDFValue.single 0.7]⟩,
      SDFDelay.interconnect ⟨⟨["dff", "Q"], SDFBus.none⟩, ⟨["dffnext", "D"], SDFBus.none⟩,
        [SDFValue.single 0.1, SDFValue.single 0.1]⟩] }]⟩

def c7gD : SDFGraph := (buildNew c7sdf testUnate).getD ⟨[], [], [], [], [], [], [], []⟩

def c7A : SDFGraphAnalyzed :=
  match analyze 20 c7gD with
  | Res.ok a => a
  | _ => ⟨[], []⟩

/-- **C7**: for the register-cut scenario `c7sdf` (a flip-flop IOPATH
`CLK → Q` with delays (0.4, 0.4), an interconnect `clk → dff/CLK` and an
interconnect `dff/Q → dffnext/D` with delays (0.1, 0.1)): the instance is
detected as a flip-flop (both transitions of its `Q` pin are in Inputs and
both transitions of its `D` pin are in Outputs), the `Q` arrivals are seeded
to exactly 0 although `Q` has incoming `CLK → Q` edges, and
`arrival[(dffnext/D, rise)] = 0.1` even though the `CLK` node itself never
receives an arrival (it is purged, `clk` being removed from Inputs). -/
theorem c7_register_cut :
    buildNew c7sdf testUnate = some c7gD ∧
    analyze 20 c7gD = Res.ok c7A ∧
    (("dff/Q", Transition.Rise) ∈ c7gD.inputs ∧ ("dff/Q", Transition.Fall) ∈ c7gD.inputs) ∧
    (("dff/D", Transition.Rise) ∈ c7gD.outputs ∧ ("dff/D", Transition.Fall) ∈ c7gD.outputs) ∧
    (OMap.find? c7A.max_delay ("dff/Q", Transition.Rise) = some (some 0) ∧
     OMap.find? c7A.max_delay ("dff/Q", Transition.Fall) = some (some 0)) ∧
    (OMap.find? c7gD.reverse_graph ("dff/Q", Transition.Rise)).getD [] ≠ [] ∧
    OMap.find? c7A.max_delay ("dffnext/D", Transition.Rise) = some (some (1/10)) ∧
    OMap.contains c7A.max_delay ("dff/CLK", Transition.Rise) = false := by
  with_unfolding_all decide


def c6sdf : SDF := ⟨[
  { celltype := "sky130_fd_sc_hd__dfxtp_1",
    inst := some ⟨["a"], SDFBus.none⟩,
    delays := [SDFDelay.ioPath SDFIOPathCond.none
      { a := ⟨SDFPortEdge.none, ⟨"CLK", SDFBus.none⟩⟩,
        b := ⟨"Q", SDFBus.none⟩,
        retain := Option.none,
        delay := [SDFValue.single 0.4, SDFValue.single 0.4] }] },
  { celltype := "top", inst := Option.none,
    delays := [
      SDFDelay.interconnect ⟨⟨["z"], SDFBus.none⟩, ⟨["a", "CLK"], SDFBus.none⟩,
        [SDFValue.single 0.2, SDFValue.single 0.2]⟩] }]⟩

def c6gD : SDFGraph := (buildNew c6sdf testUnate).getD ⟨[], [], [], [], [], [], [], []⟩

/-- **C6 (counterexample)**: in `c6sdf` a primary input `z` sorts after the
register pin `a/Q`; since the builder sorts the endpoint lists *before*
appending the register transitions, the final inputs list
`[z↑, z↓, a/Q↑, a/Q↓]` is not sorted, refuting the claim that after
construction both endpoint lists are sorted by `(pin, transition)`. -/
theorem c6_endpoints_not_sorted :
    buildNew c6sdf testUnate = some c6gD ∧
    c6gD.inputs = [("z", Transition.Rise), ("z", Transition.Fall),
      ("a/Q", Transition.Rise), ("a/Q", Transition.Fall)] ∧
    ¬ (c6gD.inputs.Pairwise ptLE ∧ c6gD.outputs.Pairwise ptLE) := by
  with_unfolding_all decide

/-- **C6 (amended)**: after construction each endpoint list is the sorted
(and, for inputs, clock/reset-filtered) list of degree-zero nodes *followed
by* the register transitions in cell-discovery order; only the prefix before
the appended register transitions is guaranteed to be sorted. -/
theorem c6_endpoints_sorted_before_register_append (sdf : SDF) (un : UnatenessData)
    (g : SDFGraph) (h : buildNew sdf un = some g) :
    ∃ st, buildSt sdf un = some st ∧
      g.inputs = retainedInputs st ++ st.regs_q ∧
      g.outputs = baseOutputs st ++ st.regs_d ∧
      (retainedInputs st).Pairwise ptLE ∧
      (baseOutputs st).Pairwise ptLE := by
  unfold buildNew at h
  rw [Option.bind_eq_bind, Option.bind_eq_some] at h
  obtain ⟨st, hst, hsome⟩ := h
  injection hsome with h'
  subst h'
  refine ⟨st, hst, rfl, rfl, ?_, ?_⟩
  · exact (List.sorted_insertionSort ptLE _).filter _
  · exact List.sorted_insertionSort ptLE _

/-- Instantiation of `c6_endpoints_sorted_before_register_append` on the
concrete register-cut graph. -/
theorem c6_amended_witness :
    ∃ st, buildSt c7sdf testUnate = some st ∧
      c7gD.inputs = retainedInputs st ++ st.regs_q ∧
      c7gD.outputs = baseOutputs st ++ st.regs_d ∧
      (retainedInputs st).Pairwise ptLE ∧
      (baseOutputs st).Pairwise ptLE :=
  c6_endpoints_sorted_before_register_append c7sdf testUnate c7gD
    (by with_unfolding_all decide)

theorem countP_lt_sorted (w : ℚ) :
    ∀ (bins : List ℚ), bins.Pairwise (· < ·) →
      bins.countP (fun v => decide (v < w)) < bins.length →
      w ≤ bins.getD (bins.countP (fun v => decide (v < w))) 0 ∧
      ∀ v ∈ bins, w ≤ v → bins.getD (bins.countP (fun v => decide (v < w))) 0 ≤ v := by
  intro bins
  induction bins with
  | nil => intro _ h; simp at h
  | cons x xs ih =>
    intro hs h
    obtain ⟨hx, hxs⟩ := List.pairwise_cons.mp hs
    by_cases hxw : x < w
    · have hcnt : (x :: xs).countP (fun v => decide (v < w)) =
          xs.countP (fun v => decide (v < w)) + 1 := by
        simp [List.countP_cons, hxw]
      have hlt : xs.countP (fun v => decide (v < w)) < xs.length := by
        rw [hcnt] at h; simpa using h
      obtain ⟨h1, h2⟩ := ih hxs hlt
      rw [hcnt]
      refine ⟨by simpa using h1, ?_⟩
      intro v hv hwv
      rcases List.mem_cons.mp hv with rfl | hv'
      · exact absurd hxw (not_lt.mpr hwv)
      · simpa using h2 v hv' hwv
    · have hw : w ≤ x := not_lt.mp hxw
      have hcnt : (x :: xs).countP (fun v => decide (v < w)) = 0 := by
        rw [List.countP_eq_zero]
        intro v hv
        simp only [decide_eq_true_eq]
        rcases List.mem_cons.mp hv with rfl | hv'
        · exact hxw
        · exact not_lt.mpr (hw.trans (hx v hv').le)
      rw [hcnt]
      refine ⟨by simpa using hw, ?_⟩
      intro v hv _
      rcases List.mem_cons.mp hv with rfl | hv'
      · simp
      · simpa using (hx v hv').le

theorem snap_spec (bins : List ℚ) (hs : bins.Pairwise (· < ·)) (hne : bins ≠ [])
    (h7 : bins.getD (bins.length - 1) 0 = 7) (w : ℚ) :
    bins.getD (min (bins.countP (fun v => decide (v < w))) (bins.length - 1)) 0 ∈ bins ∧
    (∀ v ∈ bins, w ≤ v →
      bins.getD (min (bins.countP (fun v => decide (v < w))) (bins.length - 1)) 0 ≤ v) ∧
    (w ≤ bins.getD (min (bins.countP (fun v => decide (v < w))) (bins.length - 1)) 0 ∨
      bins.getD (min (bins.countP (fun v => decide (v < w))) (bins.length - 1)) 0 = 7) := by
  have hlen : 0 < bins.length := List.length_pos.mpr hne
  have hle : bins.countP (fun v => decide (v < w)) ≤ bins.length := List.countP_le_length _
  rcases lt_or_eq_of_le hle with hlt | heq
  · have hmin : min (bins.countP (fun v => decide (v < w))) (bins.length - 1) =
        bins.countP (fun v => decide (v < w)) := by omega
    rw [hmin]
    obtain ⟨h1, h2⟩ := countP_lt_sorted w bins hs hlt
    refine ⟨?_, h2, Or.inl h1⟩
    rw [List.getD_eq_getElem _ _ hlt]
    exact List.getElem_mem hlt
  · have hmin : min (bins.countP (fun v => decide (v < w))) (bins.length - 1) =
        bins.length - 1 := by omega
    rw [hmin]
    have hall : ∀ v ∈ bins, v < w := by
      intro v hv
      have := (List.countP_eq_length).mp heq v hv
      simpa using this
    refine ⟨?_, ?_, Or.inr h7⟩
    · rw [List.getD_eq_getElem _ _ (by omega)]
      exact List.getElem_mem (by omega)
    · intro v hv hwv
      exact absurd (hall v hv) (not_lt.mpr hwv)

/-- **C9 (amended)**: `pfet_size` and `nfet_size` snap the requested width to
the *smallest bin ≥ w* (clamping to the largest bin, 7, when `w` exceeds the
whole table) — not to the nearest bin — and return the multiplicity
`w / bin`. -/
theorem c9_snap_is_ceiling (w : ℚ) :
    ((pfet_size w).1 ∈ BINS_PFET ∧ (pfet_size w).2 = w / (pfet_size w).1 ∧
      (∀ v ∈ BINS_PFET, w ≤ v → (pfet_size w).1 ≤ v) ∧
      (w ≤ (pfet_size w).1 ∨ (pfet_size w).1 = 7)) ∧
    ((nfet_size w).1 ∈ BINS_NFET ∧ (nfet_size w).2 = w / (nfet_size w).1 ∧
      (∀ v ∈ BINS_NFET, w ≤ v → (nfet_size w).1 ≤ v) ∧
      (w ≤ (nfet_size w).1 ∨ (nfet_size w).1 = 7)) := by
  have hp := snap_spec BINS_PFET (by with_unfolding_all decide)
    (by with_unfolding_all decide) (by with_unfolding_all decide) w
  have hn := snap_spec BINS_NFET (by with_unfolding_all decide)
    (by with_unfolding_all decide) (by with_unfolding_all decide) w
  constructor
  · refine ⟨?_, rfl, ?_, ?_⟩ <;> simp only [pfet_size] <;>
      [exact hp.1; exact hp.2.1; exact hp.2.2]
  · refine ⟨?_, rfl, ?_, ?_⟩ <;> simp only [nfet_size] <;>
      [exact hn.1; exact hn.2.1; exact hn.2.2]

/-- Instantiation of `c9_snap_is_ceiling` at `w = 1/2`: the snapped PFET bin
is an upper bound for `w` within the table. -/
theorem c9_amended_witness :
    (0.54 : ℚ) ∈ BINS_PFET ∧ (1/2 : ℚ) ≤ 0.54 → (pfet_size (1/2)).1 ≤ 0.54 :=
  fun h => ((c9_snap_is_ceiling (1/2)).1.2.2.1 0.54 h.1 h.2)

/-- **C9 (counterexample)**: `pfet_size 0.37` snaps to 0.42 and
`nfet_size 0.37` snaps to 0.39, although in both tables 0.36 is strictly
nearer to 0.37 — refuting "snap to the *nearest* entry". -/
theorem c9_not_nearest :
    (pfet_size (37/100)).1 = 42/100 ∧ (36/100 : ℚ) ∈ BINS_PFET ∧
    |(37:ℚ)/100 - 36/100| < |(37:ℚ)/100 - (pfet_size (37/100)).1| ∧
    (nfet_size (37/100)).1 = 39/100 ∧ (36/100 : ℚ) ∈ BINS_NFET ∧
    |(37:ℚ)/100 - 36/100| < |(37:ℚ)/100 - (nfet_size (37/100)).1| ∧
    (pfet_size (37/100)).2 = (37/100) / (42/100) ∧
    (nfet_size (37/100)).2 = (37/100) / (39/100) := by
  with_unfolding_all decide

@[simp] theorem Res.ok_bind {α β : Type} (a : α) (f : α → Res β) :
    (Res.ok a >>= f) = f a := rfl

@[simp] theorem Res.panicked_bind {α β : Type} (f : α → Res β) :
    ((Res.panicked : Res α) >>= f) = Res.panicked := rfl

@[simp] theorem Res.outOfFuel_bind {α β : Type} (f : α → Res β) :
    ((Res.outOfFuel : Res α) >>= f) = Res.outOfFuel := rfl

/-- **C10**: `extract_path` on an endpoint that is absent from the arrival
map (for example one that was purged as unreachable) panics — `find_prev`
indexes `max_delay[node]` directly — instead of returning an empty path. -/
theorem c10_extract_path_panics (g : SDFGraph) (A : SDFGraphAnalyzed)
    (out : PinTrans) (fuel : ℕ)
    (h : OMap.contains A.max_delay out = false) :
    extract_path (fuel + 1) A g out = Res.panicked := by
  have hmd : OMap.find? A.max_delay out = none := by
    unfold OMap.contains at h
    cases hf : OMap.find? A.max_delay out with
    | none => rfl
    | some v => rw [hf] at h; simp at h
  unfold extract_path extract_path_loop find_prev
  cases hrg : OMap.find? g.reverse_graph out with
  | none => simp [liftOpt, hrg]
  | some es => simp [liftOpt, hrg, hmd]

def c10sdf : SDF := ⟨[
  { celltype := "top", inst := Option.none,
    delays := [
      SDFDelay.interconnect ⟨⟨["clk"], SDFBus.none⟩, ⟨["y"], SDFBus.none⟩,
        [SDFValue.single 0.3, SDFValue.single 0.3]⟩] }]⟩

def c10gD : SDFGraph := (buildNew c10sdf testUnate).getD ⟨[], [], [], [], [], [], [], []⟩

def c10A : SDFGraphAnalyzed :=
  match analyze 20 c10gD with
  | Res.ok a => a
  | _ => ⟨[], []⟩

/-- Instantiation of `c10_extract_path_panics`: in `c10sdf` the only driver
of `y` is the clock, which is removed from Inputs, so `y` is purged from the
arrival map although it is an Output; extracting its path panics. -/
theorem c10_witness :
    buildNew c10sdf testUnate = some c10gD ∧
    analyze 20 c10gD = Res.ok c10A ∧
    ("y", Transition.Rise) ∈ c10gD.outputs ∧
    OMap.contains c10A.max_delay ("y", Transition.Rise) = false ∧
    extract_path 5 c10A c10gD ("y", Transition.Rise) = Res.panicked :=
  ⟨by with_unfolding_all decide, by with_unfolding_all decide,
   by with_unfolding_all decide, by with_unfolding_all decide,
   c10_extract_path_panics c10gD c10A ("y", Transition.Rise) 4
     (by with_unfolding_all decide)⟩

/-- Is the reverse edge `e` "tight" for a node whose arrival is `dval`:
its destination is in the arrival map and arrival + delay equals `dval`
under `f32` equality. -/
def tightB (md : OMap PinTrans FVal) (dval : FVal) (e : SDFEdge) : Bool :=
  match OMap.find? md e.dst with
  | some pd => feq (fadd pd e.delay) dval
  | Option.none => false

theorem findPrevFold (md : OMap PinTrans FVal) (dval : FVal) :
    ∀ (es : List SDFEdge) (acc : Option (PinTrans × FVal)),
      es.foldl (fun prev edge =>
        match OMap.find? md edge.dst with
        | Option.none => prev
        | some prev_delay =>
          if feq (fadd prev_delay edge.delay) dval then some (edge.dst, prev_delay)
          else prev) acc =
      match (es.filter (tightB md dval)).getLast? with
      | some e => some (e.dst, (OMap.find? md e.dst).getD Option.none)
      | Option.none => acc := by
  intro es
  induction es with
  | nil => intro acc; simp
  | cons e rest ih =>
    intro acc
    rw [List.foldl_cons]
    by_cases ht : tightB md dval e = true
    · obtain ⟨pd, hpd, hfeq⟩ :
          ∃ pd, OMap.find? md e.dst = some pd ∧ feq (fadd pd e.delay) dval = true := by
        unfold tightB at ht
        cases hf : OMap.find? md e.dst with
        | none => rw [hf] at ht; simp at ht
        | some pd => rw [hf] at ht; exact ⟨pd, rfl, ht⟩
      have hstep : (match OMap.find? md e.dst with
          | Option.none => acc
          | some prev_delay =>
            if feq (fadd prev_delay e.delay) dval then some (e.dst, prev_delay)
            else acc) = some (e.dst, pd) := by
        rw [hpd]; simp [hfeq]
      rw [hstep, ih (some (e.dst, pd))]
      have hfil : (e :: rest).filter (tightB md dval) =
          e :: rest.filter (tightB md dval) := by
        simp [List.filter_cons, ht]
      rw [hfil, List.getLast?_cons]
      cases hlast : (rest.filter (tightB md dval)).getLast? with
      | none => simp [hlast, hpd]
      | some e' => simp [hlast]
    · have hstep : (match OMap.find? md e.dst with
          | Option.none => acc
          | some prev_delay =>
            if feq (fadd prev_delay e.delay) dval then some (e.dst, prev_delay)
            else acc) = acc := by
        unfold tightB at ht
        cases hf : OMap.find? md e.dst with
        | none => rfl
        | some pd =>
          rw [hf] at ht
          simp only [Bool.not_eq_true] at ht
          simp [ht]
      rw [hstep, ih acc]
      have hfil : (e :: rest).filter (tightB md dval) =
          rest.filter (tightB md dval) := by
        simp [List.filter_cons, ht]
      rw [hfil]

/-- **C8**: when a node has reverse edges `es` and arrival `dval`,
`find_prev` returns the *last* tight predecessor in edge-list iteration
order (with its arrival), or `none` when no edge is tight. -/
theorem c8_find_prev_last_tight (g : SDFGraph) (node : PinTrans)
    (md : OMap PinTrans FVal) (es : List SDFEdge) (dval : FVal)
    (hrg : OMap.find? g.reverse_graph node = some es)
    (hmd : OMap.find? md node = some dval) :
    find_prev g node md = Res.ok
      ((es.filter (tightB md dval)).getLast?.map
        (fun e => (e.dst, (OMap.find? md e.dst).getD Option.none))) := by
  unfold find_prev
  rw [hrg, hmd]
  simp only [liftOpt, Res.ok_bind]
  rw [findPrevFold]
  cases (es.filter (tightB md dval)).getLast? <;> simp [pure]

def c8md : OMap PinTrans FVal :=
  [(("n", Transition.Rise), some 1), (("p1", Transition.Rise), some (1/2)),
   (("p2", Transition.Rise), some (3/4)), (("p3", Transition.Rise), some (1/2))]

def c8es : List SDFEdge :=
  [⟨("p1", Transition.Rise), 1/2⟩, ⟨("p2", Transition.Rise), 1/2⟩,
   ⟨("p3", Transition.Rise), 1/2⟩]

def c8g : SDFGraph := ⟨[], [(("n", Transition.Rise), c8es)], [], [], [], [], [], []⟩

/-- Instantiation of `c8_find_prev_last_tight`: both `p1` and `p3` are tight
predecessors of `n` (1/2 + 1/2 = 1) while `p2` is not; `find_prev` returns
the last tight one, `p3`. -/
theorem c8_witness :
    find_prev c8g ("n", Transition.Rise) c8md =
      Res.ok (some (("p3", Transition.Rise), some (1/2))) := by
  rw [c8_find_prev_last_tight c8g ("n", Transition.Rise) c8md c8es (some 1)
    (by with_unfolding_all decide) (by with_unfolding_all decide)]
  with_unfolding_all decide

def c5g : SDFGraph :=
  { graph := [(("a", Transition.Rise), [⟨("b", Transition.Rise), 1⟩]),
              (("b", Transition.Rise), [⟨("a", Transition.Rise), 1⟩])],
    reverse_graph := [(("a", Transition.Rise), [⟨("b", Transition.Rise), 1⟩]),
                      (("b", Transition.Rise), [⟨("a", Transition.Rise), 1⟩])],
    instance_celltype := [], instance_ins := [], instance_outs := [],
    instance_fanout := [], inputs := [], outputs := [] }

theorem c5_visit_diverges_aux (bw : PinTrans → Option (List SDFEdge))
    (ha : bw ("a", Transition.Rise) = some [⟨("b", Transition.Rise), 1⟩])
    (hb : bw ("b", Transition.Rise) = some [⟨("a", Transition.Rise), 1⟩]) :
    ∀ fuel, visit bw fuel [] ("a", Transition.Rise) = Res.outOfFuel ∧
      visit bw fuel [] ("b", Transition.Rise) = Res.outOfFuel := by
  intro fuel
  induction fuel with
  | zero => exact ⟨rfl, rfl⟩
  | succ n ih =>
    constructor
    · simp only [visit, ha]
      simp only [List.isEmpty_cons, Bool.false_eq_true, if_false]
      simp only [visitFold]
      dsimp only [OMap.find?]
      rw [ih.2]
    · simp only [visit, hb]
      simp only [List.isEmpty_cons, Bool.false_eq_true, if_false]
      simp only [visitFold]
      dsimp only [OMap.find?]
      rw [ih.1]

theorem c5_visit_diverges : ∀ fuel,
    visit (fun n => OMap.find? c5g.reverse_graph n) fuel [] ("a", Transition.Rise) =
      Res.outOfFuel ∧
    visit (fun n => OMap.find? c5g.reverse_graph n) fuel [] ("b", Transition.Rise) =
      Res.outOfFuel :=
  c5_visit_diverges_aux _ (by with_unfolding_all decide) (by with_unfolding_all decide)

/-- **C5 (amended)**: the analyzer performs no cycle detection at all — there
is no `CycleDetected` error anywhere — and on a graph with a directed cycle
the recursive `visit` simply recurses without bound: it exhausts *every*
finite recursion budget. -/
theorem c5_analyze_diverges_on_cycle : ∀ fuel, analyze fuel c5g = Res.outOfFuel := by
  intro fuel
  have h := (c5_visit_diverges fuel).1
  have hk : c5g.graph.map Prod.fst =
      [("a", Transition.Rise), ("b", Transition.Rise)] := rfl
  have hin : c5g.inputs = [] := rfl
  unfold analyze delay_pass
  rw [hk, hin]
  simp only [List.foldl_nil, List.foldlM_cons]
  have hcont : OMap.contains ([] : OMap PinTrans FVal) ("a", Transition.Rise) = false := rfl
  rw [hcont]
  simp only [Bool.false_eq_true, if_false, h, Res.outOfFuel_bind]

/-- **C5 (counterexample)**: on the two-node cyclic graph `c5g` the analyzer,
far from failing with a `CycleDetected` error, is still recursing after 50
nesting levels (and, by `c5_analyze_diverges_on_cycle`, after any number). -/
theorem c5_counterexample : analyze 50 c5g = Res.outOfFuel := by
  with_unfolding_all decide

/-- The IOPATH translation table as the specification words it: the exact
multiset of forward edges `(source, destination, delay)` that one IOPATH arc
must contribute for each unateness case. -/
def specIOPathEdges : TriUnate → SDFPin → SDFPin → ℚ → ℚ → List (PinTrans × PinTrans × ℚ)
  | TriUnate.Positive, a, b, up, down =>
    [((a, Transition.Rise), (b, Transition.Rise), up),
     ((a, Transition.Fall), (b, Transition.Fall), down)]
  | TriUnate.Negative, a, b, up, down =>
    [((a, Transition.Rise), (b, Transition.Fall), down),
     ((a, Transition.Fall), (b, Transition.Rise), up)]
  | TriUnate.Non, a, b, up, down =>
    [((a, Transition.Rise), (b, Transition.Rise), up),
     ((a, Transition.Fall), (b, Transition.Fall), down),
     ((a, Transition.Rise), (b, Transition.Fall), down),
     ((a, Transition.Fall), (b, Transition.Rise), up)]

/-- **C2**: one IOPATH arc adds to the forward graph exactly the edges the
spec's unateness table prescribes — same-transition edges with matching
delays for positive unate, cross-transition edges with swapped delays for
negative unate, all four for non-unate — and nothing else: the count of
every conceivable edge grows exactly by its multiplicity in the table. -/
theorem c2_iopath_unateness (u : TriUnate) (a b : SDFPin) (up down : ℚ)
    (g rg : EdgeMap) (x y : PinTrans) (d : ℚ) :
    edgeCount (emitIOPath u a b up down g rg).1 x y d =
      edgeCount g x y d +
        (specIOPathEdges u a b up down).countP (fun t => decide ((x, y, d) = t)) := by
  cases u <;>
    simp only [emitIOPath, specIOPathEdges, edgeCount_pushEdge, List.countP_cons,
      List.countP_nil, decide_eq_true_eq, Prod.mk.injEq] <;>
    split_ifs <;> omega

/-- The transposition invariant of the two adjacency maps: edge counts are
transposed, and both endpoints of every forward edge are keys of both maps. -/
def TransposeInv (g rg : EdgeMap) : Prop :=
  (∀ u v d, edgeCount g u v d = edgeCount rg v u d) ∧
  (∀ u v d, 0 < edgeCount g u v d →
    OMap.contains g u = true ∧ OMap.contains g v = true ∧
    OMap.contains rg u = true ∧ OMap.contains rg v = true)

theorem transposeInv_init : TransposeInv [] [] := by
  constructor
  · intro u v d; rfl
  · intro u v d h; simp [edgeCount, OMap.find?] at h

theorem transposeInv_interconnect (g rg : EdgeMap) (a b : SDFPin) (up down : ℚ)
    (h : TransposeInv g rg) :
    TransposeInv
      (ensureKey (ensureKey (pushEdge (pushEdge g
        (a, Transition.Rise) ⟨(b, Transition.Rise), up⟩)
        (a, Transition.Fall) ⟨(b, Transition.Fall), down⟩)
        (b, Transition.Rise)) (b, Transition.Fall))
      (ensureKey (ensureKey (pushEdge (ensureKey (pushEdge rg
        (b, Transition.Rise) ⟨(a, Transition.Rise), up⟩)
        (a, Transition.Rise))
        (b, Transition.Fall) ⟨(a, Transition.Fall), down⟩)
        (a, Transition.Fall)) (b, Transition.Rise)) := by
  constructor
  · intro u v d
    simp only [edgeCount_pushEdge, edgeCount_ensureKey]
    rw [h.1 u v d]
    split_ifs <;> first | omega | tauto
  · intro u v d hpos
    simp only [edgeCount_pushEdge, edgeCount_ensureKey] at hpos
    have hcases : 0 < edgeCount g u v d ∨
        (u = (a, Transition.Rise) ∧ v = (b, Transition.Rise) ∧ d = up) ∨
        (u = (a, Transition.Fall) ∧ v = (b, Transition.Fall) ∧ d = down) := by
      split_ifs at hpos with h1 h2 <;> tauto
    simp only [contains_ensureKey, contains_pushEdge]
    rcases hcases with hg | ⟨hu, hv, _⟩ | ⟨hu, hv, _⟩
    · obtain ⟨c1, c2, c3, c4⟩ := h.2 u v d hg
      simp [c1, c2, c3, c4]
    · subst hu; subst hv; simp
    · subst hu; subst hv; simp

theorem emitIOPath_Positive_fst (a b : SDFPin) (up down : ℚ) (g rg : EdgeMap) :
    (emitIOPath TriUnate.Positive a b up down g rg).1 =
      pushEdge (pushEdge g (a, Transition.Rise) ⟨(b, Transition.Rise), up⟩)
        (a, Transition.Fall) ⟨(b, Transition.Fall), down⟩ := rfl

theorem emitIOPath_Positive_snd (a b : SDFPin) (up down : ℚ) (g rg : EdgeMap) :
    (emitIOPath TriUnate.Positive a b up down g rg).2 =
      pushEdge (pushEdge rg (b, Transition.Rise) ⟨(a, Transition.Rise), up⟩)
        (b, Transition.Fall) ⟨(a, Transition.Fall), down⟩ := rfl

theorem emitIOPath_Negative_fst (a b : SDFPin) (up down : ℚ) (g rg : EdgeMap) :
    (emitIOPath TriUnate.Negative a b up down g rg).1 =
      pushEdge (pushEdge g (a, Transition.Rise) ⟨(b, Transition.Fall), down⟩)
        (a, Transition.Fall) ⟨(b, Transition.Rise), up⟩ := rfl

theorem emitIOPath_Negative_snd (a b : SDFPin) (up down : ℚ) (g rg : EdgeMap) :
    (emitIOPath TriUnate.Negative a b up down g rg).2 =
      ensureKey (ensureKey
        (pushEdge (pushEdge rg (b, Transition.Rise) ⟨(a, Transition.Fall), up⟩)
          (b, Transition.Fall) ⟨(a, Transition.Rise), down⟩)
        (a, Transition.Rise)) (a, Transition.Fall) := rfl

theorem emitIOPath_Non_fst (a b : SDFPin) (up down : ℚ) (g rg : EdgeMap) :
    (emitIOPath TriUnate.Non a b up down g rg).1 =
      pushEdge (pushEdge (pushEdge (pushEdge g
        (a, Transition.Rise) ⟨(b, Transition.Rise), up⟩)
        (a, Transition.Fall) ⟨(b, Transition.Fall), down⟩)
        (a, Transition.Rise) ⟨(b, Transition.Fall), down⟩)
        (a, Transition.Fall) ⟨(b, Transition.Rise), up⟩ := rfl

theorem emitIOPath_Non_snd (a b : SDFPin) (up down : ℚ) (g rg : EdgeMap) :
    (emitIOPath TriUnate.Non a b up down g rg).2 =
      pushEdge (pushEdge (pushEdge (pushEdge rg
        (b, Transition.Rise) ⟨(a, Transition.Rise), up⟩)
        (b, Transition.Fall) ⟨(a, Transition.Fall), down⟩)
        (b, Transition.Rise) ⟨(a, Transition.Fall), up⟩)
        (b, Transition.Fall) ⟨(a, Transition.Rise), down⟩ := rfl

theorem edgeCount_pushEdge_swap (m : EdgeMap) (k : PinTrans) (e : SDFEdge)
    (u v : PinTrans) (d : ℚ) :
    edgeCount (pushEdge m k e) u v d =
      edgeCount m u v d + (if v = e.dst ∧ u = k ∧ d = e.delay then 1 else 0) := by
  rw [edgeCount_pushEdge]
  congr 1
  exact if_congr (by tauto) rfl rfl

set_option maxHeartbeats 1000000 in
theorem transposeInv_ioPath (g rg : EdgeMap) (u : TriUnate) (a b : SDFPin)
    (up down : ℚ) (h : TransposeInv g rg) :
    TransposeInv
      (ensureKey (ensureKey (emitIOPath u a b up down g rg).1
        (b, Transition.Rise)) (b, Transition.Fall))
      (ensureKey (ensureKey (emitIOPath u a b up down g rg).2
        (a, Transition.Rise)) (a, Transition.Fall)) := by
  cases u
  case Positive =>
    constructor
    · intro x y d
      simp only [emitIOPath_Positive_fst, emitIOPath_Positive_snd,
        edgeCount_pushEdge, edgeCount_ensureKey]
      rw [h.1 x y d]
      split_ifs <;> first | omega | tauto
    · intro x y d hpos
      simp only [emitIOPath_Positive_fst, edgeCount_pushEdge, edgeCount_ensureKey] at hpos
      have hcases : 0 < edgeCount g x y d ∨
          (x = (a, Transition.Rise) ∧ y = (b, Transition.Rise) ∧ d = up) ∨
          (x = (a, Transition.Fall) ∧ y = (b, Transition.Fall) ∧ d = down) := by
        split_ifs at hpos with h1 h2 <;> tauto
      simp only [emitIOPath_Positive_fst, emitIOPath_Positive_snd,
        contains_ensureKey, contains_pushEdge]
      rcases hcases with hg | ⟨hx, hy, _⟩ | ⟨hx, hy, _⟩
      · obtain ⟨c1, c2, c3, c4⟩ := h.2 x y d hg
        simp [c1, c2, c3, c4]
      · subst hx; subst hy; simp
      · subst hx; subst hy; simp
  case Negative =>
    constructor
    · intro x y d
      simp only [emitIOPath_Negative_fst, emitIOPath_Negative_snd,
        edgeCount_pushEdge, edgeCount_ensureKey]
      rw [h.1 x y d]
      split_ifs <;> first | omega | tauto
    · intro x y d hpos
      simp only [emitIOPath_Negative_fst, edgeCount_pushEdge, edgeCount_ensureKey] at hpos
      have hcases : 0 < edgeCount g x y d ∨
          (x = (a, Transition.Rise) ∧ y = (b, Transition.Fall) ∧ d = down) ∨
          (x = (a, Transition.Fall) ∧ y = (b, Transition.Rise) ∧ d = up) := by
        split_ifs at hpos with h1 h2 <;> tauto
      simp only [emitIOPath_Negative_fst, emitIOPath_Negative_snd,
        contains_ensureKey, contains_pushEdge]
      rcases hcases with hg | ⟨hx, hy, _⟩ | ⟨hx, hy, _⟩
      · obtain ⟨c1, c2, c3, c4⟩ := h.2 x y d hg
        simp [c1, c2, c3, c4]
      · subst hx; subst hy; simp
      · subst hx; subst hy; simp
  case Non =>
    constructor
    · intro x y d
      conv_lhs => rw [edgeCount_ensureKey, edgeCount_ensureKey, emitIOPath_Non_fst,
        edgeCount_pushEdge, edgeCount_pushEdge, edgeCount_pushEdge, edgeCount_pushEdge]
      conv_rhs => rw [edgeCount_ensureKey, edgeCount_ensureKey, emitIOPath_Non_snd,
        edgeCount_pushEdge_swap, edgeCount_pushEdge_swap, edgeCount_pushEdge_swap,
        edgeCount_pushEdge_swap]
      dsimp only
      rw [h.1 x y d]
      split_ifs <;> omega
    · intro x y d hpos
      simp only [emitIOPath_Non_fst, edgeCount_pushEdge, edgeCount_ensureKey] at hpos
      have hcases : 0 < edgeCount g x y d ∨
          (x = (a, Transition.Rise) ∧ y = (b, Transition.Rise) ∧ d = up) ∨
          (x = (a, Transition.Fall) ∧ y = (b, Transition.Fall) ∧ d = down) ∨
          (x = (a, Transition.Rise) ∧ y = (b, Transition.Fall) ∧ d = down) ∨
          (x = (a, Transition.Fall) ∧ y = (b, Transition.Rise) ∧ d = up) := by
        split_ifs at hpos with h1 h2 h3 h4 <;> tauto
      simp only [emitIOPath_Non_fst, emitIOPath_Non_snd,
        contains_ensureKey, contains_pushEdge]
      rcases hcases with hg | ⟨hx, hy, _⟩ | ⟨hx, hy, _⟩ | ⟨hx, hy, _⟩ | ⟨hx, hy, _⟩
      · obtain ⟨c1, c2, c3, c4⟩ := h.2 x y d hg
        simp [c1, c2, c3, c4]
      · subst hx; subst hy; simp
      · subst hx; subst hy; simp
      · subst hx; subst hy; simp
      · subst hx; subst hy; simp

theorem processDelay_inv (un : UnatenessData) (cn ct : String) (st st' : BuildState)
    (d : SDFDelay) (h : TransposeInv st.graph st.reverse_graph)
    (hp : processDelay un cn ct st d = some st') :
    TransposeInv st'.graph st'.reverse_graph := by
  cases d with
  | interconnect inter =>
    unfold processDelay at hp
    try dsimp only at hp
    try rw [Option.bind_eq_bind] at hp
    rw [Option.bind_eq_some] at hp
    obtain ⟨ud, _, hp⟩ := hp
    obtain ⟨up, down⟩ := ud
    try dsimp only at hp
    try rw [Option.bind_eq_bind] at hp
    rw [Option.bind_eq_some] at hp
    obtain ⟨a_name, _, hp⟩ := hp
    try dsimp only at hp
    rw [Option.bind_eq_some] at hp
    obtain ⟨b_name, _, hp⟩ := hp
    try dsimp only at hp
    rw [Option.some.injEq] at hp
    subst hp
    exact transposeInv_interconnect _ _ a_name b_name up down h
  | ioPath cond io =>
    unfold processDelay at hp
    try dsimp only at hp
    try rw [Option.bind_eq_bind] at hp
    rw [Option.bind_eq_some] at hp
    obtain ⟨cshort, _, hp⟩ := hp
    try dsimp only at hp
    try rw [Option.bind_eq_bind] at hp
    rw [Option.bind_eq_some] at hp
    obtain ⟨unate_pins, _, hp⟩ := hp
    try dsimp only at hp
    cases cond with
    | cond c => exact absurd hp (by simp)
    | condElse => exact absurd hp (by simp)
    | none =>
      dsimp only at hp
      cases hedge : io.a.edge_type with
      | posedge => rw [hedge] at hp; exact absurd hp (by simp)
      | negedge => rw [hedge] at hp; exact absurd hp (by simp)
      | t01 => rw [hedge] at hp; exact absurd hp (by simp)
      | t10 => rw [hedge] at hp; exact absurd hp (by simp)
      | t0z => rw [hedge] at hp; exact absurd hp (by simp)
      | tz1 => rw [hedge] at hp; exact absurd hp (by simp)
      | t1z => rw [hedge] at hp; exact absurd hp (by simp)
      | tz0 => rw [hedge] at hp; exact absurd hp (by simp)
      | none =>
        rw [hedge] at hp
        try dsimp only at hp
        try rw [Option.bind_eq_bind] at hp
        rw [Option.bind_eq_some] at hp
        obtain ⟨a_name, _, hp⟩ := hp
        try dsimp only at hp
        try rw [Option.bind_eq_bind] at hp
        rw [Option.bind_eq_some] at hp
        obtain ⟨b_name, _, hp⟩ := hp
        try dsimp only at hp
        try rw [Option.bind_eq_bind] at hp
        rw [Option.bind_eq_some] at hp
        obtain ⟨ud, _, hp⟩ := hp
        obtain ⟨up, down⟩ := ud
        try dsimp only at hp
        try rw [Option.bind_eq_bind] at hp
        rw [Option.bind_eq_some] at hp
        obtain ⟨uu, _, hp⟩ := hp
        try dsimp only at hp
        rw [Option.some.injEq] at hp
        subst hp
        exact transposeInv_ioPath _ _ uu a_name b_name up down h

theorem foldDelays_inv (un : UnatenessData) (cn ct : String) :
    ∀ (ds : List SDFDelay) (st st' : BuildState),
      TransposeInv st.graph st.reverse_graph →
      List.foldlM (processDelay un cn ct) st ds = some st' →
      TransposeInv st'.graph st'.reverse_graph := by
  intro ds
  induction ds with
  | nil =>
    intro st st' h hf
    simp only [List.foldlM_nil] at hf
    exact (Option.some.inj hf) ▸ h
  | cons d ds ih =>
    intro st st' h hf
    rw [List.foldlM_cons, Option.bind_eq_bind, Option.bind_eq_some] at hf
    obtain ⟨st₁, h1, h2⟩ := hf
    exact ih st₁ st' (processDelay_inv un cn ct st st₁ d h h1) h2

theorem processCell_inv (un : UnatenessData) (st st' : BuildState) (cell : SDFCell)
    (h : TransposeInv st.graph st.reverse_graph)
    (hp : processCell un st cell = some st') :
    TransposeInv st'.graph st'.reverse_graph := by
  unfold processCell at hp
  rw [Option.bind_eq_bind, Option.bind_eq_some] at hp
  obtain ⟨cell_name, _, hp⟩ := hp
  dsimp only at hp
  refine foldDelays_inv un cell_name cell.celltype cell.delays _ st' ?_ hp
  exact h

theorem buildSt_inv (sdf : SDF) (un : UnatenessData) (st' : BuildState)
    (h : buildSt sdf un = some st') : TransposeInv st'.graph st'.reverse_graph := by
  unfold buildSt at h
  suffices H : ∀ (cells : List SDFCell) (st st' : BuildState),
      TransposeInv st.graph st.reverse_graph →
      List.foldlM (processCell un) st cells = some st' →
      TransposeInv st'.graph st'.reverse_graph from
    H sdf.cells initState st' transposeInv_init h
  intro cells
  induction cells with
  | nil =>
    intro st st' hI hf
    simp only [List.foldlM_nil] at hf
    exact (Option.some.inj hf) ▸ hI
  | cons c cs ih =>
    intro st st' hI hf
    rw [List.foldlM_cons, Option.bind_eq_bind, Option.bind_eq_some] at hf
    obtain ⟨st₁, h1, h2⟩ := hf
    exact ih st₁ st' (processCell_inv un st st₁ c hI h1) h2

/-- **C3**: for every graph the builder produces, the forward and reverse
adjacency maps are exact transposes of each other (an edge `u→v` with delay
`d` is in the forward map exactly as often as `v→u` with delay `d` is in the
reverse map), and every transition-pin occurring on either side of any edge
is present as a key in both maps. -/
theorem c3_graph_transposition (sdf : SDF) (un : UnatenessData) (g : SDFGraph)
    (h : buildNew sdf un = some g) :
    (∀ u v d, 0 < edgeCount g.graph u v d ↔ 0 < edgeCount g.reverse_graph v u d) ∧
    (∀ u v d, 0 < edgeCount g.graph u v d ∨ 0 < edgeCount g.reverse_graph u v d →
      OMap.contains g.graph u = true ∧ OMap.contains g.graph v = true ∧
      OMap.contains g.reverse_graph u = true ∧ OMap.contains g.reverse_graph v = true) := by
  unfold buildNew at h
  rw [Option.bind_eq_bind, Option.bind_eq_some] at h
  obtain ⟨st, hst, hsome⟩ := h
  injection hsome with h'
  subst h'
  have hinv := buildSt_inv sdf un st hst
  constructor
  · intro u v d
    exact iff_of_eq (congrArg (0 < ·) (hinv.1 u v d))
  · intro u v d hor
    rcases hor with hg | hrg
    · exact hinv.2 u v d hg
    · have hflip : 0 < edgeCount st.graph v u d := by
        rw [hinv.1 v u d]; exact hrg
      obtain ⟨c1, c2, c3, c4⟩ := hinv.2 v u d hflip
      exact ⟨c2, c1, c4, c3⟩

/-- Instantiation of `c3_graph_transposition` on the register-cut graph: the
interconnect edge `clk↑ → dff/CLK↑` (delay 0.7) has its transposed edge in
the reverse map. -/
theorem c3_witness :
    0 < edgeCount c7gD.graph ("clk", Transition.Rise) ("dff/CLK", Transition.Rise) (7/10) ↔
    0 < edgeCount c7gD.reverse_graph ("dff/CLK", Transition.Rise) ("clk", Transition.Rise) (7/10) :=
  (c3_graph_transposition c7sdf testUnate c7gD (by with_unfolding_all decide)).1
    ("clk", Transition.Rise) ("dff/CLK", Transition.Rise) (7/10)

/-! ## Correctness of the delay passes (claims about `analyze`) -/

theorem OMap.find?_mem {K V : Type} [DecidableEq K] {m : OMap K V} {k : K} {v : V}
    (h : OMap.find? m k = some v) : (k, v) ∈ m := by
  induction m with
  | nil => simp [OMap.find?] at h
  | cons hd tl ih =>
    obtain ⟨k₀, v₀⟩ := hd
    by_cases hk : k = k₀
    · subst hk
      have hfe : OMap.find? ((k, v₀) :: tl) k = some v₀ := by simp [OMap.find?]
      rw [hfe] at h
      injection h with h
      subst h
      simp
    · simp only [OMap.find?, if_neg hk] at h
      simp [ih h]

theorem fadd_some (p d : ℚ) : fadd (some p) d = some (p + d) := rfl

theorem fadd_none (d : ℚ) : fadd Option.none d = Option.none := rfl

theorem fmax_eq_some {a b : FVal} {q : ℚ} (h : fmax a b = some q) :
    a = some q ∨ b = some q := by
  cases a with
  | none => exact Or.inr h
  | some x =>
    cases b with
    | none => exact Or.inl h
    | some y =>
      simp only [fmax, Option.some.injEq] at h
      rcases max_choice x y with hc | hc <;> rw [hc] at h <;> simp [h]

theorem fmax_le_right (a : FVal) (t : ℚ) :
    ∃ q, fmax a (some t) = some q ∧ t ≤ q := by
  cases a with
  | none => exact ⟨t, rfl, le_refl t⟩
  | some x => exact ⟨max x t, rfl, le_max_right x t⟩

theorem fmax_le_left (t : ℚ) (b : FVal) :
    ∃ q, fmax (some t) b = some q ∧ t ≤ q := by
  cases b with
  | none => exact ⟨t, rfl, le_refl t⟩
  | some y => exact ⟨max t y, rfl, le_max_left t y⟩

theorem fmax_isSome_right {a b : FVal} (h : b.isSome) : (fmax a b).isSome := by
  cases a <;> cases b <;> simp_all [fmax]

/-- Reachability from the seed set `inputs` following the predecessor edges
`bw` backwards: the nodes whose arrival the delay pass can derive. Following
a reverse edge of `v` backwards corresponds to a forward edge into `v`, so
this is exactly "reachable from some Input in the forward graph" when `bw`
is the reverse adjacency, and "can reach some Output" when `bw` is the
forward adjacency. -/
inductive ReachBW (inputs : List PinTrans) (bw : PinTrans → Option (List SDFEdge)) :
    PinTrans → Prop
  | base (v : PinTrans) : v ∈ inputs → ReachBW inputs bw v
  | step (v : PinTrans) (es : List SDFEdge) (e : SDFEdge) :
      bw v = some es → e ∈ es → ReachBW inputs bw e.dst → ReachBW inputs bw v

/-- The invariant maintained on the memo map during a delay pass:
seeds are pinned at 0; every key has predecessor edges; every finite value
is non-negative and is either a seed 0 or witnessed by a tight predecessor
already in the map; and reachable keys never hold the NaN sentinel. -/
def MdInv (inputs : List PinTrans) (bw : PinTrans → Option (List SDFEdge))
    (md : OMap PinTrans FVal) : Prop :=
  (∀ v ∈ inputs, OMap.find? md v = some (some 0)) ∧
  (∀ v fv, OMap.find? md v = some fv → (bw v).isSome) ∧
  (∀ v q, OMap.find? md v = some (some q) →
    0 ≤ q ∧ (v ∈ inputs ∧ q = 0 ∨
      ∃ es, bw v = some es ∧ ∃ e ∈ es, ∃ p,
        OMap.find? md e.dst = some (some p) ∧ p + e.delay = q)) ∧
  (∀ v, ReachBW inputs bw v → ∀ fv, OMap.find? md v = some fv → fv.isSome)

/-- Key-sortedness of a memo map (what `BTreeMap` maintains intrinsically). -/
def PW (md : OMap PinTrans FVal) : Prop :=
  md.Pairwise (fun a b => ptLtb a.1 b.1 = true)

theorem PW_insert {md : OMap PinTrans FVal} (k : PinTrans) (v : FVal)
    (h : PW md) : PW (OMap.insert ptLtb md k v) :=
  OMap.pairwise_insert ptLtb (fun h1 h2 => ptLtb_trans h1 h2)
    (fun h1 h2 => ptLtb_conn h1 h2) md k v h

theorem visitFold_PW (rec : OMap PinTrans FVal → PinTrans → Res (OMap PinTrans FVal))
    (hrec : ∀ md n md', PW md → rec md n = Res.ok md' → PW md') :
    ∀ (es : List SDFEdge) (md : OMap PinTrans FVal) (mx : FVal) md' mx',
      PW md → visitFold rec es md mx = Res.ok (md', mx') → PW md' := by
  intro es
  induction es with
  | nil =>
    intro md mx md' mx' h hf
    simp only [visitFold, Res.ok.injEq, Prod.mk.injEq] at hf
    exact hf.1 ▸ h
  | cons e rest ih =>
    intro md mx md' mx' h hf
    simp only [visitFold] at hf
    cases hfind : OMap.find? md e.dst with
    | some dval =>
      rw [hfind] at hf
      exact ih md _ md' mx' h hf
    | none =>
      rw [hfind] at hf
      cases hv : rec md e.dst with
      | ok md₁ =>
        rw [hv] at hf
        try dsimp only at hf
        cases hfind2 : OMap.find? md₁ e.dst with
        | some dval =>
          rw [hfind2] at hf
          exact ih md₁ _ md' mx' (hrec md e.dst md₁ h hv) hf
        | none => rw [hfind2] at hf; exact absurd hf (by simp)
      | panicked => rw [hv] at hf; exact absurd hf (by simp)
      | outOfFuel => rw [hv] at hf; exact absurd hf (by simp)

theorem visit_PW (bw : PinTrans → Option (List SDFEdge)) :
    ∀ (fuel : ℕ) (md : OMap PinTrans FVal) (node : PinTrans) md',
      PW md → visit bw fuel md node = Res.ok md' → PW md' := by
  intro fuel
  induction fuel with
  | zero => intro md node md' _ hf; exact absurd hf (by simp [visit])
  | succ n ih =>
    intro md node md' h hf
    simp only [visit] at hf
    cases hbw : bw node with
    | none => rw [hbw] at hf; exact absurd hf (by simp)
    | some es =>
      rw [hbw] at hf
      try dsimp only at hf
      by_cases he : es.isEmpty
      · rw [if_pos he] at hf
        simp only [Res.ok.injEq] at hf
        exact hf ▸ PW_insert node Option.none h
      · rw [if_neg he] at hf
        cases hfold : visitFold (visit bw n) es md Option.none with
        | ok p =>
          obtain ⟨md₁, mx⟩ := p
          rw [hfold] at hf
          simp only [Res.ok.injEq] at hf
          have h₁ := visitFold_PW (visit bw n) (fun md n' md' h hv => ih md n' md' h hv)
            es md Option.none md₁ mx h hfold
          exact hf ▸ PW_insert node mx h₁
        | panicked => rw [hfold] at hf; exact absurd hf (by simp)
        | outOfFuel => rw [hfold] at hf; exact absurd hf (by simp)

/-- What one successful `visit` call guarantees: existing entries persist,
new entries sit at ranks at most the visited node's, the visited node gains
an entry, and the map invariant is maintained. -/
def VisitSpec (inputs : List PinTrans) (bw : PinTrans → Option (List SDFEdge))
    (rank : PinTrans → ℕ) (fuel : ℕ) : Prop :=
  ∀ node md, rank node < fuel → (bw node).isSome → OMap.find? md node = none →
    MdInv inputs bw md →
    ∃ md', visit bw fuel md node = Res.ok md' ∧
      (∀ u fv, OMap.find? md u = some fv → OMap.find? md' u = some fv) ∧
      (∀ u fv, OMap.find? md' u = some fv →
        OMap.find? md u = some fv ∨ rank u ≤ rank node) ∧
      (∃ fv, OMap.find? md' node = some fv) ∧
      MdInv inputs bw md'

theorem visitFold_spec (inputs : List PinTrans)
    (bw : PinTrans → Option (List SDFEdge)) (rank : PinTrans → ℕ)
    (Hnn : ∀ v es e, bw v = some es → e ∈ es → 0 ≤ e.delay)
    (fuel B : ℕ) (hvs : VisitSpec inputs bw rank fuel) (hBf : B ≤ fuel) :
    ∀ (es : List SDFEdge) (md : OMap PinTrans FVal) (mx : FVal),
      (∀ e ∈ es, rank e.dst < B ∧ (bw e.dst).isSome) →
      MdInv inputs bw md →
      ∃ md' mx', visitFold (visit bw fuel) es md mx = Res.ok (md', mx') ∧
        (∀ u fv, OMap.find? md u = some fv → OMap.find? md' u = some fv) ∧
        (∀ u fv, OMap.find? md' u = some fv →
          OMap.find? md u = some fv ∨ rank u < B) ∧
        MdInv inputs bw md' ∧
        (∀ t, mx = some t → ∃ q, mx' = some q ∧ t ≤ q) ∧
        (∀ q, mx' = some q → mx = some q ∨ ∃ e ∈ es, ∃ p,
          OMap.find? md' e.dst = some (some p) ∧ p + e.delay = q) ∧
        (∀ e ∈ es, ∀ p, OMap.find? md' e.dst = some (some p) →
          ∃ q, mx' = some q ∧ p + e.delay ≤ q) ∧
        (∀ e ∈ es, ∃ fv, OMap.find? md' e.dst = some fv) := by
  intro es
  induction es with
  | nil =>
    intro md mx _ hinv
    refine ⟨md, mx, rfl, fun u fv h => h, fun u fv h => Or.inl h, hinv, ?_, ?_, ?_, ?_⟩
    · exact fun t ht => ⟨t, ht, le_refl t⟩
    · exact fun q hq => Or.inl hq
    · intro e he; simp at he
    · intro e he; simp at he
  | cons e rest ih =>
    intro md mx hes hinv
    have heB := hes e (by simp)
    have hes' : ∀ e' ∈ rest, rank e'.dst < B ∧ (bw e'.dst).isSome :=
      fun e' he' => hes e' (by simp [he'])
    cases hfind : OMap.find? md e.dst with
    | some dval =>
      obtain ⟨md', mx', hfold, A, C, I, E0, E1, E2, E3⟩ :=
        ih md (fmax mx (fadd dval e.delay)) hes' hinv
      refine ⟨md', mx', ?_, A, C, I, ?_, ?_, ?_, ?_⟩
      · simp only [visitFold, hfind]
        exact hfold
      · intro t ht
        subst ht
        obtain ⟨s, hseq, hts⟩ := fmax_le_left t (fadd dval e.delay)
        obtain ⟨q, hq, hsq⟩ := E0 s hseq
        exact ⟨q, hq, le_trans hts hsq⟩
      · intro q hq
        rcases E1 q hq with hmx2 | ⟨e', he', p, hp, hpq⟩
        · rcases fmax_eq_some hmx2 with hmx | hadd
          · exact Or.inl hmx
          · cases dval with
            | none => exact absurd hadd (by simp [fadd])
            | some p =>
              rw [fadd_some] at hadd
              injection hadd with hadd
              exact Or.inr ⟨e, by simp, p, A e.dst (some p) hfind, hadd⟩
        · exact Or.inr ⟨e', by simp [he'], p, hp, hpq⟩
      · intro e' he' p hp
        rcases List.mem_cons.mp he' with rfl | he''
        · have hd' := A e'.dst dval hfind
          rw [hd'] at hp
          injection hp with hp
          subst hp
          obtain ⟨s, hseq, hts⟩ := fmax_le_right mx (p + e'.delay)
          rw [← fadd_some] at hseq
          obtain ⟨q, hq, hsq⟩ := E0 s hseq
          exact ⟨q, hq, le_trans hts hsq⟩
        · exact E2 e' he'' p hp
      · intro e' he'
        rcases List.mem_cons.mp he' with rfl | he''
        · exact ⟨dval, A e'.dst dval hfind⟩
        · exact E3 e' he''
    | none =>
      obtain ⟨md₁, hok, A₁, C₁, ⟨fv, hentry⟩, I₁⟩ :=
        hvs e.dst md (lt_of_lt_of_le heB.1 hBf) heB.2 hfind hinv
      obtain ⟨md', mx', hfold, A₂, C₂, I₂, E0, E1, E2, E3⟩ :=
        ih md₁ (fmax mx (fadd fv e.delay)) hes' I₁
      refine ⟨md', mx', ?_, ?_, ?_, I₂, ?_, ?_, ?_, ?_⟩
      · simp only [visitFold, hfind, hok, hentry]
        exact hfold
      · exact fun u fv' h => A₂ u fv' (A₁ u fv' h)
      · intro u fv' h
        rcases C₂ u fv' h with h1 | h1
        · rcases C₁ u fv' h1 with h2 | h2
          · exact Or.inl h2
          · exact Or.inr (lt_of_le_of_lt h2 heB.1)
        · exact Or.inr h1
      · intro t ht
        subst ht
        obtain ⟨s, hseq, hts⟩ := fmax_le_left t (fadd fv e.delay)
        obtain ⟨q, hq, hsq⟩ := E0 s hseq
        exact ⟨q, hq, le_trans hts hsq⟩
      · intro q hq
        rcases E1 q hq with hmx2 | ⟨e', he', p, hp, hpq⟩
        · rcases fmax_eq_some hmx2 with hmx | hadd
          · exact Or.inl hmx
          · cases fv with
            | none => exact absurd hadd (by simp [fadd])
            | some p =>
              rw [fadd_some] at hadd
              injection hadd with hadd
              exact Or.inr ⟨e, by simp, p, A₂ e.dst (some p) hentry, hadd⟩
        · exact Or.inr ⟨e', by simp [he'], p, hp, hpq⟩
      · intro e' he' p hp
        rcases List.mem_cons.mp he' with rfl | he''
        · have hd' := A₂ e'.dst fv hentry
          rw [hd'] at hp
          injection hp with hp
          subst hp
          obtain ⟨s, hseq, hts⟩ := fmax_le_right mx (p + e'.delay)
          rw [← fadd_some] at hseq
          obtain ⟨q, hq, hsq⟩ := E0 s hseq
          exact ⟨q, hq, le_trans hts hsq⟩
        · exact E2 e' he'' p hp
      · intro e' he'
        rcases List.mem_cons.mp he' with rfl | he''
        · exact ⟨fv, A₂ e'.dst fv hentry⟩
        · exact E3 e' he''

theorem visit_spec (inputs : List PinTrans)
    (bw : PinTrans → Option (List SDFEdge)) (rank : PinTrans → ℕ)
    (Hnn : ∀ v es e, bw v = some es → e ∈ es → 0 ≤ e.delay)
    (Hrk : ∀ v es e, bw v = some es → e ∈ es → rank e.dst < rank v)
    (Hcl : ∀ v es e, bw v = some es → e ∈ es → (bw e.dst).isSome) :
    ∀ fuel, VisitSpec inputs bw rank fuel := by
  intro fuel
  induction fuel with
  | zero => intro node md h; exact absurd h (Nat.not_lt_zero _)
  | succ n ih =>
    intro node md hrank hbws habs hinv
    obtain ⟨es, hes⟩ := Option.isSome_iff_exists.mp hbws
    by_cases hemp : es.isEmpty
    · have hesnil : es = [] := by
        cases es with
        | nil => rfl
        | cons a l => simp [List.isEmpty] at hemp
      subst hesnil
      refine ⟨OMap.insert ptLtb md node Option.none, ?_, ?_, ?_, ?_, ?_, ?_, ?_, ?_⟩
      · simp only [visit, hes]
        rfl
      · intro u fv hu
        have hne : u ≠ node := by
          intro he; subst he; rw [habs] at hu; cases hu
        rw [OMap.find?_insert_ne _ _ _ hne]
        exact hu
      · intro u fv hu
        by_cases hne : u = node
        · exact Or.inr (hne ▸ le_refl _)
        · rw [OMap.find?_insert_ne _ _ _ hne] at hu
          exact Or.inl hu
      · exact ⟨Option.none, OMap.find?_insert_self _ _ _ _⟩
      · -- I1
        intro v hv
        have hne : v ≠ node := by
          intro he; subst he
          rw [hinv.1 v hv] at habs; cases habs
        rw [OMap.find?_insert_ne _ _ _ hne]
        exact hinv.1 v hv
      · -- I2
        intro v fv hv
        by_cases hne : v = node
        · exact hne ▸ hbws
        · rw [OMap.find?_insert_ne _ _ _ hne] at hv
          exact hinv.2.1 v fv hv
      · -- I3
        intro v q hv
        by_cases hne : v = node
        · subst hne
          rw [OMap.find?_insert_self] at hv
          cases hv
        · rw [OMap.find?_insert_ne _ _ _ hne] at hv
          obtain ⟨h0, hw⟩ := hinv.2.2.1 v q hv
          refine ⟨h0, ?_⟩
          rcases hw with h1 | ⟨es', hes', e, he, p, hp, hpq⟩
          · exact Or.inl h1
          · have hne2 : e.dst ≠ node := by
              intro he2; subst he2; rw [habs] at hp; cases hp
            exact Or.inr ⟨es', hes', e, he, p,
              by rw [OMap.find?_insert_ne _ _ _ hne2]; exact hp, hpq⟩
      · -- I4
        intro v hr fv hv
        by_cases hne : v = node
        · subst hne
          exfalso
          cases hr with
          | base _ hb => rw [hinv.1 v hb] at habs; cases habs
          | step _ es' e hbw' he _ =>
            rw [hes] at hbw'
            injection hbw' with hbw'
            subst hbw'
            cases he
        · rw [OMap.find?_insert_ne _ _ _ hne] at hv
          exact hinv.2.2.2 v hr fv hv
    · have hB : ∀ e ∈ es, rank e.dst < rank node ∧ (bw e.dst).isSome :=
        fun e he => ⟨Hrk node es e hes he, Hcl node es e hes he⟩
      obtain ⟨md₁, mx', hfold, A, C, I, E0, E1, E2, E3⟩ :=
        visitFold_spec inputs bw rank Hnn n (rank node) ih (by omega) es md
          Option.none hB hinv
      have hnode₁ : OMap.find? md₁ node = none := by
        cases hx : OMap.find? md₁ node with
        | none => rfl
        | some fv =>
          rcases C node fv hx with hmd | hlt
          · rw [habs] at hmd; cases hmd
          · exact absurd hlt (lt_irrefl _)
      refine ⟨OMap.insert ptLtb md₁ node mx', ?_, ?_, ?_, ?_, ?_, ?_, ?_, ?_⟩
      · simp only [visit, hes]
        rw [if_neg hemp, hfold]
      · intro u fv hu
        have hne : u ≠ node := by
          intro he; subst he; rw [habs] at hu; cases hu
        rw [OMap.find?_insert_ne _ _ _ hne]
        exact A u fv hu
      · intro u fv hu
        by_cases hne : u = node
        · exact Or.inr (hne ▸ le_refl _)
        · rw [OMap.find?_insert_ne _ _ _ hne] at hu
          rcases C u fv hu with h1 | h1
          · exact Or.inl h1
          · exact Or.inr (le_of_lt h1)
      · exact ⟨mx', OMap.find?_insert_self _ _ _ _⟩
      · -- I1
        intro v hv
        have hne : v ≠ node := by
          intro he; subst he
          rw [hinv.1 v hv] at habs; cases habs
        rw [OMap.find?_insert_ne _ _ _ hne]
        exact A v (some 0) (hinv.1 v hv)
      · -- I2
        intro v fv hv
        by_cases hne : v = node
        · exact hne ▸ hbws
        · rw [OMap.find?_insert_ne _ _ _ hne] at hv
          exact I.2.1 v fv hv
      · -- I3
        intro v q hv
        by_cases hne : v = node
        · subst hne
          rw [OMap.find?_insert_self] at hv
          injection hv with hv
          rcases E1 q hv with h0 | ⟨e, he, p, hp, hpq⟩
          · cases h0
          · have h0p := (I.2.2.1 e.dst p hp).1
            have h0d := Hnn v es e hes he
            have hne2 : e.dst ≠ v := by
              intro he2; rw [he2, hnode₁] at hp; cases hp
            refine ⟨by rw [← hpq]; exact add_nonneg h0p h0d,
              Or.inr ⟨es, hes, e, he, p, ?_, hpq⟩⟩
            rw [OMap.find?_insert_ne _ _ _ hne2]
            exact hp
        · rw [OMap.find?_insert_ne _ _ _ hne] at hv
          obtain ⟨h0, hw⟩ := I.2.2.1 v q hv
          refine ⟨h0, ?_⟩
          rcases hw with h1 | ⟨es', hes', e, he, p, hp, hpq⟩
          · exact Or.inl h1
          · have hne2 : e.dst ≠ node := by
              intro he2; rw [he2, hnode₁] at hp; cases hp
            exact Or.inr ⟨es', hes', e, he, p,
              by rw [OMap.find?_insert_ne _ _ _ hne2]; exact hp, hpq⟩
      · -- I4
        intro v hr fv hv
        by_cases hne : v = node
        · subst hne
          rw [OMap.find?_insert_self] at hv
          injection hv with hv
          subst hv
          cases hr with
          | base _ hb =>
            exfalso; rw [hinv.1 v hb] at habs; cases habs
          | step _ es' e hbw' he hre =>
            rw [hes] at hbw'
            injection hbw' with hbw'
            subst hbw'
            obtain ⟨fve, hfve⟩ := E3 e he
            have hsome := I.2.2.2 e.dst hre fve hfve
            obtain ⟨p, hp⟩ := Option.isSome_iff_exists.mp hsome
            subst hp
            obtain ⟨q, hq, _⟩ := E2 e he p hfve
            rw [hq]
            rfl
        · rw [OMap.find?_insert_ne _ _ _ hne] at hv
          exact I.2.2.2 v hr fv hv

theorem find?_initFold (l : List PinTrans) :
    ∀ (acc : OMap PinTrans FVal) (v : PinTrans),
      OMap.find? (l.foldl (fun md u => OMap.insert ptLtb md u (some 0)) acc) v =
        if v ∈ l then some (some 0) else OMap.find? acc v := by
  induction l with
  | nil => intro acc v; simp
  | cons x xs ih =>
    intro acc v
    rw [List.foldl_cons, ih]
    by_cases hx : v ∈ xs
    · simp [hx]
    · by_cases hv : v = x
      · subst hv
        simp [hx, OMap.find?_insert_self]
      · simp [hx, hv, OMap.find?_insert_ne _ _ _ hv]

theorem PW_initFold (l : List PinTrans) :
    ∀ (acc : OMap PinTrans FVal), PW acc →
      PW (l.foldl (fun md u => OMap.insert ptLtb md u (some 0)) acc) := by
  induction l with
  | nil => intro acc h; exact h
  | cons x xs ih =>
    intro acc h
    rw [List.foldl_cons]
    exact ih _ (PW_insert x (some 0) h)

theorem keysFold_spec (inputs : List PinTrans)
    (bw : PinTrans → Option (List SDFEdge)) (rank : PinTrans → ℕ) (fuel : ℕ)
    (hvs : VisitSpec inputs bw rank fuel) :
    ∀ (keys : List PinTrans) (md : OMap PinTrans FVal),
      MdInv inputs bw md → PW md →
      (∀ v ∈ keys, rank v < fuel ∧ (bw v).isSome) →
      ∃ md', List.foldlM (fun md v =>
          if OMap.contains md v then Res.ok md else visit bw fuel md v) md keys =
          Res.ok md' ∧
        (∀ u fv, OMap.find? md u = some fv → OMap.find? md' u = some fv) ∧
        MdInv inputs bw md' ∧ PW md' ∧
        (∀ v ∈ keys, ∃ fv, OMap.find? md' v = some fv) := by
  intro keys
  induction keys with
  | nil =>
    intro md hinv hpw _
    exact ⟨md, rfl, fun u fv h => h, hinv, hpw, by simp⟩
  | cons v keys ih =>
    intro md hinv hpw hks
    have hkv := hks v (by simp)
    have hks' : ∀ u ∈ keys, rank u < fuel ∧ (bw u).isSome :=
      fun u hu => hks u (by simp [hu])
    rw [List.foldlM_cons]
    cases hc : OMap.contains md v with
    | true =>
      obtain ⟨md', hfold, A, I, W, E⟩ := ih md hinv hpw hks'
      obtain ⟨fv, hfv⟩ := Option.isSome_iff_exists.mp (by
        unfold OMap.contains at hc
        exact hc)
      refine ⟨md', ?_, A, I, W, ?_⟩
      · rw [if_pos rfl, Res.ok_bind]
        exact hfold
      · intro u hu
        rcases List.mem_cons.mp hu with rfl | hu'
        · exact ⟨fv, A u fv hfv⟩
        · exact E u hu'
    | false =>
      have habs : OMap.find? md v = none := by
        unfold OMap.contains at hc
        cases hx : OMap.find? md v with
        | none => rfl
        | some fv => rw [hx] at hc; simp at hc
      obtain ⟨md₁, hok, A₁, _, ⟨fv, hfv⟩, I₁⟩ := hvs v md hkv.1 hkv.2 habs hinv
      have hpw₁ : PW md₁ := visit_PW bw fuel md v md₁ hpw hok
      obtain ⟨md', hfold, A₂, I₂, W₂, E₂⟩ := ih md₁ I₁ hpw₁ hks'
      refine ⟨md', ?_, fun u fv' h => A₂ u fv' (A₁ u fv' h), I₂, W₂, ?_⟩
      · rw [if_neg (by simp), hok, Res.ok_bind]
        exact hfold
      · intro u hu
        rcases List.mem_cons.mp hu with rfl | hu'
        · exact ⟨fv, A₂ u fv hfv⟩
        · exact E₂ u hu'

theorem reach_of_entry (inputs : List PinTrans)
    (bw : PinTrans → Option (List SDFEdge)) (rank : PinTrans → ℕ)
    (md : OMap PinTrans FVal)
    (htight : ∀ v q, OMap.find? md v = some (some q) →
      0 ≤ q ∧ (v ∈ inputs ∧ q = 0 ∨ ∃ es, bw v = some es ∧ ∃ e ∈ es, ∃ p,
        OMap.find? md e.dst = some (some p) ∧ p + e.delay = q))
    (Hrk : ∀ v es e, bw v = some es → e ∈ es → rank e.dst < rank v) :
    ∀ (n : ℕ) (v : PinTrans) (q : ℚ), rank v < n →
      OMap.find? md v = some (some q) → ReachBW inputs bw v := by
  intro n
  induction n with
  | zero => intro v q h; exact absurd h (Nat.not_lt_zero _)
  | succ n ih =>
    intro v q hrank hv
    rcases (htight v q hv).2 with ⟨hin, _⟩ | ⟨es, hes, e, he, p, hp, _⟩
    · exact ReachBW.base v hin
    · have : rank e.dst < n := by
        have := Hrk v es e hes he
        omega
      exact ReachBW.step v es e hes he (ih e.dst p this hp)

theorem delay_pass_spec (inputs all_keys : List PinTrans)
    (bw : PinTrans → Option (List SDFEdge)) (rank : PinTrans → ℕ) (fuel : ℕ)
    (Hnn : ∀ v es e, bw v = some es → e ∈ es → 0 ≤ e.delay)
    (Hrk : ∀ v es e, bw v = some es → e ∈ es → rank e.dst < rank v)
    (Hcl : ∀ v es e, bw v = some es → e ∈ es → (bw e.dst).isSome)
    (HinBW : ∀ v ∈ inputs, (bw v).isSome)
    (Hkeys : ∀ v ∈ all_keys, rank v < fuel ∧ (bw v).isSome)
    (Hstep_keys : ∀ v es e, bw v = some es → e ∈ es → v ∈ all_keys) :
    ∃ md, delay_pass fuel inputs all_keys bw = Res.ok md ∧
      (∀ v, OMap.contains md v = true ↔ ReachBW inputs bw v) ∧
      (∀ v fv, OMap.find? md v = some fv → ∃ q, fv = some q ∧ 0 ≤ q) ∧
      (∀ v q, OMap.find? md v = some (some q) → q = 0 ∨ ∃ es, bw v = some es ∧
        ∃ e ∈ es, ∃ p, OMap.find? md e.dst = some (some p) ∧ p + e.delay = q) ∧
      (∀ v, OMap.contains md v = true → (bw v).isSome) ∧
      (∀ v ∈ inputs, OMap.find? md v = some (some 0)) := by
  have hinv₀ : MdInv inputs bw
      (inputs.foldl (fun md u => OMap.insert ptLtb md u (some 0)) []) := by
    refine ⟨?_, ?_, ?_, ?_⟩
    · intro v hv
      rw [find?_initFold]
      simp [hv]
    · intro v fv hv
      rw [find?_initFold] at hv
      by_cases hin : v ∈ inputs
      · exact HinBW v hin
      · rw [if_neg hin] at hv; simp [OMap.find?] at hv
    · intro v q hv
      rw [find?_initFold] at hv
      by_cases hin : v ∈ inputs
      · rw [if_pos hin] at hv
        injection hv with hv
        injection hv with hv
        exact ⟨by rw [← hv], Or.inl ⟨hin, hv.symm⟩⟩
      · rw [if_neg hin] at hv; simp [OMap.find?] at hv
    · intro v _ fv hv
      rw [find?_initFold] at hv
      by_cases hin : v ∈ inputs
      · rw [if_pos hin] at hv; injection hv with hv; rw [← hv]; rfl
      · rw [if_neg hin] at hv; simp [OMap.find?] at hv
  have hpw₀ : PW (inputs.foldl (fun md u => OMap.insert ptLtb md u (some 0)) []) :=
    PW_initFold inputs [] (List.Pairwise.nil)
  obtain ⟨md_end, hfold, Apres, Iend, Wend, Eend⟩ :=
    keysFold_spec inputs bw rank fuel
      (visit_spec inputs bw rank Hnn Hrk Hcl fuel) all_keys _ hinv₀ hpw₀ Hkeys
  have hnd : md_end.Pairwise (fun a b => a.1 ≠ b.1) :=
    OMap.pairwise_ne_of_pairwise_lt ptLtb ptLtb_irrefl md_end Wend
  have hffind : ∀ v fv,
      OMap.find? (md_end.filter (fun kv => kv.2.isSome)) v = some fv ↔
      (OMap.find? md_end v = some fv ∧ fv.isSome = true) := by
    intro v fv
    rw [OMap.find?_filter _ _ hnd]
    cases hx : OMap.find? md_end v with
    | none => simp
    | some fv' =>
      by_cases hs : fv'.isSome
      · simp only [hs, if_true]
        constructor
        · intro h; injection h with h; exact ⟨by rw [h], by rw [← h]; exact hs⟩
        · intro ⟨h, _⟩; injection h with h; rw [h]
      · simp only [hs, Bool.false_eq_true, if_false]
        constructor
        · intro h; cases h
        · intro ⟨h, hsome⟩
          injection h with h
          rw [← h] at hsome
          exact absurd hsome hs
  refine ⟨md_end.filter (fun kv => kv.2.isSome), ?_, ?_, ?_, ?_, ?_, ?_⟩
  · unfold delay_pass
    dsimp only
    rw [hfold]
    rfl
  · intro v
    constructor
    · intro hc
      obtain ⟨fv, hfv⟩ := Option.isSome_iff_exists.mp (by
        unfold OMap.contains at hc; exact hc)
      obtain ⟨hend, hsome⟩ := (hffind v fv).mp hfv
      obtain ⟨q, hq⟩ := Option.isSome_iff_exists.mp hsome
      subst hq
      exact reach_of_entry inputs bw rank md_end Iend.2.2.1 Hrk (rank v + 1) v q
        (by omega) hend
    · intro hr
      have hent : ∃ fv, OMap.find? md_end v = some fv := by
        cases hr with
        | base _ hb => exact ⟨some 0, Apres v (some 0) (by
            rw [find?_initFold]; simp [hb])⟩
        | step _ es e hbw he _ => exact Eend v (Hstep_keys v es e hbw he)
      obtain ⟨fv, hfv⟩ := hent
      have hsome := Iend.2.2.2 v hr fv hfv
      unfold OMap.contains
      rw [(hffind v fv).mpr ⟨hfv, hsome⟩]
      rfl
  · intro v fv hv
    obtain ⟨hend, hsome⟩ := (hffind v fv).mp hv
    obtain ⟨q, hq⟩ := Option.isSome_iff_exists.mp hsome
    subst hq
    exact ⟨q, rfl, (Iend.2.2.1 v q hend).1⟩
  · intro v q hv
    obtain ⟨hend, _⟩ := (hffind v (some q)).mp hv
    rcases (Iend.2.2.1 v q hend).2 with ⟨_, hq0⟩ | ⟨es, hes, e, he, p, hp, hsum⟩
    · exact Or.inl hq0
    · exact Or.inr ⟨es, hes, e, he, p, (hffind e.dst (some p)).mpr ⟨hp, rfl⟩, hsum⟩
  · intro v hc
    obtain ⟨fv, hfv⟩ := Option.isSome_iff_exists.mp (by
      unfold OMap.contains at hc; exact hc)
    exact Iend.2.1 v fv ((hffind v fv).mp hfv).1
  · intro v hv
    have h0 : OMap.find? md_end v = some (some 0) :=
      Apres v (some 0) (by rw [find?_initFold]; simp [hv])
    exact (hffind v (some 0)).mpr ⟨h0, rfl⟩

theorem Res.bind_eq_ok {α β : Type} {x : Res α} {f : α → Res β} {c : β}
    (h : x >>= f = Res.ok c) : ∃ b, x = Res.ok b ∧ f b = Res.ok c := by
  cases x with
  | ok a => rw [Res.ok_bind] at h; exact ⟨a, rfl, h⟩
  | panicked => rw [Res.panicked_bind] at h; cases h
  | outOfFuel => rw [Res.outOfFuel_bind] at h; cases h

/-- C4: assuming non-negative edge delays and acyclicity (witnessed by rank
functions decreasing along the reverse and forward adjacency lists), and the
well-formedness the builder establishes (every endpoint and every edge target
has an adjacency entry, every key of one direction is a key of the other),
`analyze` succeeds; `max_delay` then contains exactly the transition-pins
reachable from an input along reverse edges (so NaN-seeded unreachable nodes
are purged), with every retained value finite and non-negative, and
`max_delay_backwards` symmetrically contains exactly the nodes reaching an
output, again with finite non-negative values. -/
theorem c4_analysis_domains (fuel : ℕ) (g : SDFGraph)
    (rankF rankB : PinTrans → ℕ)
    (HnnF : ∀ kv ∈ g.reverse_graph, ∀ e ∈ kv.2, 0 ≤ e.delay)
    (HrkF : ∀ kv ∈ g.reverse_graph, ∀ e ∈ kv.2, rankF e.dst < rankF kv.1)
    (HclF : ∀ kv ∈ g.reverse_graph, ∀ e ∈ kv.2,
      (OMap.find? g.reverse_graph e.dst).isSome)
    (HinF : ∀ v ∈ g.inputs, (OMap.find? g.reverse_graph v).isSome)
    (HkeyF : ∀ kv ∈ g.graph, rankF kv.1 < fuel ∧
      (OMap.find? g.reverse_graph kv.1).isSome)
    (HcovF : ∀ kv ∈ g.reverse_graph, kv.1 ∈ g.graph.map Prod.fst)
    (HnnB : ∀ kv ∈ g.graph, ∀ e ∈ kv.2, 0 ≤ e.delay)
    (HrkB : ∀ kv ∈ g.graph, ∀ e ∈ kv.2, rankB e.dst < rankB kv.1)
    (HclB : ∀ kv ∈ g.graph, ∀ e ∈ kv.2, (OMap.find? g.graph e.dst).isSome)
    (HinB : ∀ v ∈ g.outputs, (OMap.find? g.graph v).isSome)
    (HkeyB : ∀ kv ∈ g.reverse_graph, rankB kv.1 < fuel ∧
      (OMap.find? g.graph kv.1).isSome)
    (HcovB : ∀ kv ∈ g.graph, kv.1 ∈ g.reverse_graph.map Prod.fst) :
    ∃ A, analyze fuel g = Res.ok A ∧
      (∀ v, OMap.contains A.max_delay v = true ↔
        ReachBW g.inputs (fun n => OMap.find? g.reverse_graph n) v) ∧
      (∀ v fv, OMap.find? A.max_delay v = some fv → ∃ q, fv = some q ∧ 0 ≤ q) ∧
      (∀ v, OMap.contains A.max_delay_backwards v = true ↔
        ReachBW g.outputs (fun n => OMap.find? g.graph n) v) ∧
      (∀ v fv, OMap.find? A.max_delay_backwards v = some fv →
        ∃ q, fv = some q ∧ 0 ≤ q) := by
  obtain ⟨md, hdp1, hc1, hv1, _, _, _⟩ :=
    delay_pass_spec g.inputs (g.graph.map Prod.fst)
      (fun n => OMap.find? g.reverse_graph n) rankF fuel
      (fun v es e hbw he => HnnF (v, es) (OMap.find?_mem hbw) e he)
      (fun v es e hbw he => HrkF (v, es) (OMap.find?_mem hbw) e he)
      (fun v es e hbw he => HclF (v, es) (OMap.find?_mem hbw) e he)
      HinF
      (fun v hv => by
        obtain ⟨kv, hkv, hfst⟩ := List.mem_map.mp hv
        exact hfst ▸ HkeyF kv hkv)
      (fun v es e hbw _ => HcovF (v, es) (OMap.find?_mem hbw))
  obtain ⟨mdb, hdp2, hc2, hv2, _, _, _⟩ :=
    delay_pass_spec g.outputs (g.reverse_graph.map Prod.fst)
      (fun n => OMap.find? g.graph n) rankB fuel
      (fun v es e hbw he => HnnB (v, es) (OMap.find?_mem hbw) e he)
      (fun v es e hbw he => HrkB (v, es) (OMap.find?_mem hbw) e he)
      (fun v es e hbw he => HclB (v, es) (OMap.find?_mem hbw) e he)
      HinB
      (fun v hv => by
        obtain ⟨kv, hkv, hfst⟩ := List.mem_map.mp hv
        exact hfst ▸ HkeyB kv hkv)
      (fun v es e hbw _ => HcovB (v, es) (OMap.find?_mem hbw))
  refine ⟨⟨md, mdb⟩, ?_, hc1, hv1, hc2, hv2⟩
  unfold analyze
  rw [hdp1, Res.ok_bind, hdp2, Res.ok_bind]
  rfl

/-- A three-node chain `a → b → c` with delays 1/2 and 1/5, as a literal
graph value, for instantiating the analyzer correctness theorems. -/
def c4g : SDFGraph :=
  { graph := [(("a", Transition.Rise), [⟨("b", Transition.Rise), 1/2⟩]),
              (("b", Transition.Rise), [⟨("c", Transition.Rise), 1/5⟩]),
              (("c", Transition.Rise), [])],
    reverse_graph := [(("a", Transition.Rise), []),
                      (("b", Transition.Rise), [⟨("a", Transition.Rise), 1/2⟩]),
                      (("c", Transition.Rise), [⟨("b", Transition.Rise), 1/5⟩])],
    inputs := [("a", Transition.Rise)],
    outputs := [("c", Transition.Rise)],
    instance_celltype := [], instance_ins := [], instance_outs := [],
    instance_fanout := [] }

/-- Topological rank of `c4g` for the forward pass (reverse edges descend). -/
def c4rankF : PinTrans → ℕ :=
  fun v => if v.1 = "a" then 0 else if v.1 = "b" then 1 else 2

/-- Topological rank of `c4g` for the backward pass (forward edges descend). -/
def c4rankB : PinTrans → ℕ :=
  fun v => if v.1 = "c" then 0 else if v.1 = "b" then 1 else 2

theorem c4_witness :
    ((∀ kv ∈ c4g.reverse_graph, ∀ e ∈ kv.2, 0 ≤ e.delay) ∧
     (∀ kv ∈ c4g.reverse_graph, ∀ e ∈ kv.2, c4rankF e.dst < c4rankF kv.1) ∧
     (∀ kv ∈ c4g.reverse_graph, ∀ e ∈ kv.2,
       (OMap.find? c4g.reverse_graph e.dst).isSome) ∧
     (∀ v ∈ c4g.inputs, (OMap.find? c4g.reverse_graph v).isSome) ∧
     (∀ kv ∈ c4g.graph, c4rankF kv.1 < 10 ∧
       (OMap.find? c4g.reverse_graph kv.1).isSome) ∧
     (∀ kv ∈ c4g.reverse_graph, kv.1 ∈ c4g.graph.map Prod.fst) ∧
     (∀ kv ∈ c4g.graph, ∀ e ∈ kv.2, 0 ≤ e.delay) ∧
     (∀ kv ∈ c4g.graph, ∀ e ∈ kv.2, c4rankB e.dst < c4rankB kv.1) ∧
     (∀ kv ∈ c4g.graph, ∀ e ∈ kv.2, (OMap.find? c4g.graph e.dst).isSome) ∧
     (∀ v ∈ c4g.outputs, (OMap.find? c4g.graph v).isSome) ∧
     (∀ kv ∈ c4g.reverse_graph, c4rankB kv.1 < 10 ∧
       (OMap.find? c4g.graph kv.1).isSome) ∧
     (∀ kv ∈ c4g.graph, kv.1 ∈ c4g.reverse_graph.map Prod.fst)) ∧
    (∃ A, analyze 10 c4g = Res.ok A ∧
      (∀ v, OMap.contains A.max_delay v = true ↔
        ReachBW c4g.inputs (fun n => OMap.find? c4g.reverse_graph n) v) ∧
      (∀ v fv, OMap.find? A.max_delay v = some fv → ∃ q, fv = some q ∧ 0 ≤ q) ∧
      (∀ v, OMap.contains A.max_delay_backwards v = true ↔
        ReachBW c4g.outputs (fun n => OMap.find? c4g.graph n) v) ∧
      (∀ v fv, OMap.find? A.max_delay_backwards v = some fv →
        ∃ q, fv = some q ∧ 0 ≤ q)) :=
  ⟨⟨by with_unfolding_all decide, by with_unfolding_all decide,
    by with_unfolding_all decide, by with_unfolding_all decide,
    by with_unfolding_all decide, by with_unfolding_all decide,
    by with_unfolding_all decide, by with_unfolding_all decide,
    by with_unfolding_all decide, by with_unfolding_all decide,
    by with_unfolding_all decide, by with_unfolding_all decide⟩,
   c4_analysis_domains 10 c4g c4rankF c4rankB
    (by with_unfolding_all decide) (by with_unfolding_all decide)
    (by with_unfolding_all decide) (by with_unfolding_all decide)
    (by with_unfolding_all decide) (by with_unfolding_all decide)
    (by with_unfolding_all decide) (by with_unfolding_all decide)
    (by with_unfolding_all decide) (by with_unfolding_all decide)
    (by with_unfolding_all decide) (by with_unfolding_all decide)⟩

/-- `a` is a tight predecessor of `b`: some reverse edge of `b` points to `a`
and `a`'s arrival plus that edge's delay equals `b`'s arrival exactly. -/
def linked (rg : EdgeMap) (a b : PinTrans × FVal) : Prop :=
  ∃ es, OMap.find? rg b.1 = some es ∧ ∃ e ∈ es, e.dst = a.1 ∧
    ∃ p q, a.2 = some p ∧ b.2 = some q ∧ p + e.delay = q

/-- Sum of the consecutive arrival increments along a path; on a tight chain
each increment is the delay of the linking edge. -/
def chainDelaySum : List (PinTrans × FVal) → ℚ
  | [] => 0
  | [_] => 0
  | a :: b :: rest => (b.2.getD 0 - a.2.getD 0) + chainDelaySum (b :: rest)

theorem chainDelaySum_concat (x : PinTrans × FVal) :
    ∀ (l : List (PinTrans × FVal)) (z : PinTrans × FVal),
      (l ++ [x]).head? = some z →
      chainDelaySum (l ++ [x]) = x.2.getD 0 - z.2.getD 0 := by
  intro l
  induction l with
  | nil =>
    intro z hz
    simp only [List.nil_append, List.head?_cons, Option.some.injEq] at hz
    subst hz
    simp [chainDelaySum]
  | cons a l ih =>
    intro z hz
    simp only [List.cons_append, List.head?_cons, Option.some.injEq] at hz
    subst hz
    cases l with
    | nil => simp [chainDelaySum]
    | cons b l' =>
      have hsum : chainDelaySum ((a :: b :: l') ++ [x]) =
          (b.2.getD 0 - a.2.getD 0) + chainDelaySum ((b :: l') ++ [x]) := rfl
      rw [hsum, ih b (by simp)]
      ring

theorem mem_of_getLast?_eq {α : Type} : ∀ {l : List α} {a : α},
    l.getLast? = some a → a ∈ l := by
  intro l
  induction l with
  | nil => intro a h; cases h
  | cons x xs ih =>
    intro a h
    cases xs with
    | nil =>
      rw [List.getLast?_singleton] at h
      injection h with h
      simp_all
    | cons y ys =>
      rw [List.getLast?_cons_cons] at h
      exact List.mem_cons.mpr (Or.inr (ih h))

theorem extract_loop_spec (g : SDFGraph) (md : OMap PinTrans FVal)
    (rank : PinTrans → ℕ)
    (Hfin : ∀ v fv, OMap.find? md v = some fv → ∃ q, fv = some q ∧ 0 ≤ q)
    (Htight : ∀ v q, OMap.find? md v = some (some q) → q = 0 ∨ ∃ es,
      OMap.find? g.reverse_graph v = some es ∧ ∃ e ∈ es, ∃ p,
        OMap.find? md e.dst = some (some p) ∧ p + e.delay = q)
    (Hrg : ∀ v fv, OMap.find? md v = some fv →
      (OMap.find? g.reverse_graph v).isSome)
    (Hrk : ∀ v es e, OMap.find? g.reverse_graph v = some es → e ∈ es →
      rank e.dst < rank v) :
    ∀ (fuel : ℕ) (node : PinTrans) (q : ℚ) (acc : List (PinTrans × FVal)),
      rank node < fuel →
      OMap.find? md node = some (some q) →
      ∃ tl, extract_path_loop g md fuel node acc = Res.ok ((acc ++ tl).reverse) ∧
        (∀ x ∈ tl, OMap.find? md x.1 = some x.2 ∧ rank x.1 < rank node) ∧
        List.Chain' (fun b a => linked g.reverse_graph a b) ((node, some q) :: tl) ∧
        (((node, some q) :: tl).getLast (List.cons_ne_nil _ _)).2 = some 0 := by
  intro fuel
  induction fuel with
  | zero => intro node q acc hr; exact absurd hr (Nat.not_lt_zero _)
  | succ fuel ih =>
    intro node q acc hrank hmd
    obtain ⟨es, hes⟩ := Option.isSome_iff_exists.mp (Hrg node (some q) hmd)
    have hfp : find_prev g node md = Res.ok
        ((es.filter (tightB md (some q))).getLast?.map
          (fun e => (e.dst, (OMap.find? md e.dst).getD Option.none))) := by
      unfold find_prev
      rw [hes, hmd]
      simp only [liftOpt, Res.ok_bind]
      rw [findPrevFold]
      cases (es.filter (tightB md (some q))).getLast? <;> simp [pure]
    have hloop : extract_path_loop g md (fuel + 1) node acc =
        match find_prev g node md with
        | Res.ok Option.none => Res.ok acc.reverse
        | Res.ok (some (prev_node, delay)) =>
          extract_path_loop g md fuel prev_node (acc ++ [(prev_node, delay)])
        | Res.panicked => Res.panicked
        | Res.outOfFuel => Res.outOfFuel := rfl
    cases hlast : (es.filter (tightB md (some q))).getLast? with
    | none =>
      have hq0 : q = 0 := by
        rcases Htight node q hmd with hq | ⟨es', hes', e, he, p, hp, hsum⟩
        · exact hq
        · rw [hes] at hes'
          injection hes' with hes'
          subst hes'
          have htB : tightB md (some q) e = true := by
            unfold tightB
            rw [hp]
            dsimp only
            rw [fadd_some, hsum]
            simp [feq]
          have hne := List.ne_nil_of_mem (List.mem_filter.mpr ⟨he, htB⟩)
          have hsome := List.getLast?_isSome.mpr hne
          rw [hlast] at hsome
          cases hsome
      refine ⟨[], ?_, by simp, List.chain'_singleton _, by simp [hq0]⟩
      rw [hloop, hfp, hlast]
      simp
    | some e =>
      have hefil : e ∈ es.filter (tightB md (some q)) := mem_of_getLast?_eq hlast
      obtain ⟨hein, htB⟩ := List.mem_filter.mp hefil
      obtain ⟨pd, hpd, hfeq⟩ :
          ∃ pd, OMap.find? md e.dst = some pd ∧ feq (fadd pd e.delay) (some q) = true := by
        unfold tightB at htB
        cases hf : OMap.find? md e.dst with
        | none => rw [hf] at htB; cases htB
        | some pd => rw [hf] at htB; exact ⟨pd, rfl, htB⟩
      obtain ⟨p, hpdp, h0p⟩ := Hfin e.dst pd hpd
      subst hpdp
      have hpq : p + e.delay = q := by
        rw [fadd_some] at hfeq
        unfold feq at hfeq
        exact of_decide_eq_true hfeq
      have hmd' : OMap.find? md e.dst = some (some p) := hpd
      have hrk : rank e.dst < rank node := Hrk node es e hes hein
      obtain ⟨tl', heq, hmem', hchain', hlast'⟩ :=
        ih e.dst p (acc ++ [(e.dst, some p)]) (by omega) hmd'
      refine ⟨(e.dst, some p) :: tl', ?_, ?_, ?_, ?_⟩
      · rw [hloop, hfp, hlast]
        dsimp only [Option.map]
        rw [hpd]
        dsimp only [Option.getD]
        rw [heq]
        simp
      · intro x hx
        rcases List.mem_cons.mp hx with rfl | hx'
        · exact ⟨hmd', hrk⟩
        · exact ⟨(hmem' x hx').1, lt_trans (hmem' x hx').2 hrk⟩
      · refine List.chain'_cons.mpr ⟨?_, hchain'⟩
        exact ⟨es, hes, e, hein, rfl, p, q, rfl, rfl, hpq⟩
      · rw [List.getLast_cons (List.cons_ne_nil _ _)]
        exact hlast'

/-- C1: for an endpoint `out` carried in the analyzer's `max_delay` map with a
finite arrival, `extract_path` succeeds and returns a list of predecessor
entries that excludes `out`, whose entries are exactly `max_delay` entries,
that forms — with `out` appended — a chain of tight edges (each step's arrival
plus the linking edge delay equals the next arrival exactly), that starts at a
node with arrival 0, and whose total arrival increment (the sum of the tight
edge delays) equals `out`'s arrival. The delay hypotheses are those of the
acyclic non-negative setting: non-negative delays, a rank function descending
along reverse edges, closed adjacency, and enough fuel. -/
theorem c1_extract_path_tight (fuel1 fuel2 : ℕ) (g : SDFGraph)
    (rankF : PinTrans → ℕ)
    (HnnF : ∀ kv ∈ g.reverse_graph, ∀ e ∈ kv.2, 0 ≤ e.delay)
    (HrkF : ∀ kv ∈ g.reverse_graph, ∀ e ∈ kv.2, rankF e.dst < rankF kv.1)
    (HclF : ∀ kv ∈ g.reverse_graph, ∀ e ∈ kv.2,
      (OMap.find? g.reverse_graph e.dst).isSome)
    (HinF : ∀ v ∈ g.inputs, (OMap.find? g.reverse_graph v).isSome)
    (HkeyF : ∀ kv ∈ g.graph, rankF kv.1 < fuel1 ∧
      (OMap.find? g.reverse_graph kv.1).isSome)
    (HcovF : ∀ kv ∈ g.reverse_graph, kv.1 ∈ g.graph.map Prod.fst)
    (A : SDFGraphAnalyzed) (hA : analyze fuel1 g = Res.ok A)
    (out : PinTrans) (aout : ℚ)
    (hout : OMap.find? A.max_delay out = some (some aout))
    (hf2 : rankF out < fuel2) :
    ∃ l, extract_path fuel2 A g out = Res.ok l ∧
      out ∉ l.map Prod.fst ∧
      (∀ x ∈ l, OMap.find? A.max_delay x.1 = some x.2) ∧
      List.Chain' (linked g.reverse_graph) (l ++ [(out, some aout)]) ∧
      (∃ z, (l ++ [(out, some aout)]).head? = some z ∧ z.2 = some 0) ∧
      chainDelaySum (l ++ [(out, some aout)]) = aout := by
  unfold analyze at hA
  obtain ⟨md, hdp1, hrest⟩ := Res.bind_eq_ok hA
  try dsimp only at hrest
  obtain ⟨mdb, hdp2, hpure⟩ := Res.bind_eq_ok hrest
  try dsimp only at hpure
  injection hpure with hAeq
  subst hAeq
  obtain ⟨md', hdp1', _, hfin, htight, hbws, _⟩ :=
    delay_pass_spec g.inputs (g.graph.map Prod.fst)
      (fun n => OMap.find? g.reverse_graph n) rankF fuel1
      (fun v es e hbw he => HnnF (v, es) (OMap.find?_mem hbw) e he)
      (fun v es e hbw he => HrkF (v, es) (OMap.find?_mem hbw) e he)
      (fun v es e hbw he => HclF (v, es) (OMap.find?_mem hbw) e he)
      HinF
      (fun v hv => by
        obtain ⟨kv, hkv, hfst⟩ := List.mem_map.mp hv
        exact hfst ▸ HkeyF kv hkv)
      (fun v es e hbw _ => HcovF (v, es) (OMap.find?_mem hbw))
  rw [hdp1] at hdp1'
  injection hdp1' with hmdeq
  subst hmdeq
  try dsimp only at hout ⊢
  obtain ⟨tl, heq, hmem, hchain, hlastz⟩ :=
    extract_loop_spec g md rankF hfin htight
      (fun v fv h => hbws v (by unfold OMap.contains; rw [h]; rfl))
      (fun v es e hbw he => HrkF (v, es) (OMap.find?_mem hbw) e he)
      fuel2 out aout [] hf2 hout
  have hrev : tl.reverse ++ [(out, some aout)] = ((out, some aout) :: tl).reverse := by
    simp
  have hhead : (tl.reverse ++ [(out, some aout)]).head? =
      some (((out, some aout) :: tl).getLast (List.cons_ne_nil _ _)) := by
    rw [hrev, List.head?_reverse]
    exact List.getLast?_eq_getLast _ _
  refine ⟨tl.reverse, ?_, ?_, ?_, ?_, ?_, ?_⟩
  · unfold extract_path
    simpa using heq
  · intro h
    obtain ⟨x, hx, hfst⟩ := List.mem_map.mp h
    have := (hmem x (List.mem_reverse.mp hx)).2
    rw [hfst] at this
    exact absurd this (lt_irrefl _)
  · intro x hx
    exact (hmem x (List.mem_reverse.mp hx)).1
  · rw [hrev]
    exact List.chain'_reverse.mpr hchain
  · exact ⟨_, hhead, hlastz⟩
  · have hsum := chainDelaySum_concat (out, some aout) tl.reverse _ hhead
    rw [hsum, hlastz]
    simp

/-- The analysis result of the chain graph `c4g`, for instantiating the
path-extraction theorem on concrete data. -/
def c4A : SDFGraphAnalyzed :=
  match analyze 10 c4g with
  | Res.ok a => a
  | _ => ⟨[], []⟩

theorem c1_witness :
    ((∀ kv ∈ c4g.reverse_graph, ∀ e ∈ kv.2, 0 ≤ e.delay) ∧
     (∀ kv ∈ c4g.reverse_graph, ∀ e ∈ kv.2, c4rankF e.dst < c4rankF kv.1) ∧
     (∀ kv ∈ c4g.reverse_graph, ∀ e ∈ kv.2,
       (OMap.find? c4g.reverse_graph e.dst).isSome) ∧
     (∀ v ∈ c4g.inputs, (OMap.find? c4g.reverse_graph v).isSome) ∧
     (∀ kv ∈ c4g.graph, c4rankF kv.1 < 10 ∧
       (OMap.find? c4g.reverse_graph kv.1).isSome) ∧
     (∀ kv ∈ c4g.reverse_graph, kv.1 ∈ c4g.graph.map Prod.fst) ∧
     analyze 10 c4g = Res.ok c4A ∧
     OMap.find? c4A.max_delay ("c", Transition.Rise) = some (some (7/10)) ∧
     c4rankF ("c", Transition.Rise) < 5) ∧
    (∃ l, extract_path 5 c4A c4g ("c", Transition.Rise) = Res.ok l ∧
      ("c", Transition.Rise) ∉ l.map Prod.fst ∧
      (∀ x ∈ l, OMap.find? c4A.max_delay x.1 = some x.2) ∧
      List.Chain' (linked c4g.reverse_graph)
        (l ++ [(("c", Transition.Rise), some (7/10))]) ∧
      (∃ z, (l ++ [(("c", Transition.Rise), some (7/10))]).head? = some z ∧
        z.2 = some 0) ∧
      chainDelaySum (l ++ [(("c", Transition.Rise), some (7/10))]) = 7/10) :=
  ⟨⟨by with_unfolding_all decide, by with_unfolding_all decide,
    by with_unfolding_all decide, by with_unfolding_all decide,
    by with_unfolding_all decide, by with_unfolding_all decide,
    by with_unfolding_all decide, by with_unfolding_all decide,
    by with_unfolding_all decide⟩,
   c1_extract_path_tight 10 5 c4g c4rankF
    (by with_unfolding_all decide) (by with_unfolding_all decide)
    (by with_unfolding_all decide) (by with_unfolding_all decide)
    (by with_unfolding_all decide) (by with_unfolding_all decide)
    c4A (by with_unfolding_all decide) ("c", Transition.Rise) (7/10)
    (by with_unfolding_all decide) (by with_unfolding_all decide)⟩
